import Mathlib

/-!
# Verification of the ACVM range-subsumption optimizer and partial witness solver

This development shallowly embeds the code of the `acvm` crate:

* `src/acvm/src/compiler/optimizers/redundant_range.rs` — the
  `RangeOptimizer` pass (`collect_ranges`, `replace_redundant_ranges`,
  `extract_range_opcode`) is embedded faithfully, with the two `expect`
  panic branches modelled as `Except` errors.
* `src/acvm/src/lib.rs` — the error taxonomy (`OpcodeNotSolvable`,
  `OpcodeResolutionError`) is embedded from the source.

The data model (`Witness`, `Expression`, `Opcode`, `Circuit`, …) lives in the
`acir` crate, which is not part of the available sources; it is modelled from
the specification's data-model section.  The partial witness solver lives in
the `pwg` module, which is likewise not part of the available sources (only
its trait declarations and an integration test are); it is modelled from the
specification's solver section.
-/

set_option autoImplicit false

namespace Acvm

/-- Modelled from the spec: a variable ("witness") is an opaque, densely
allocated integer identifier (`Witness(u32)` in the `acir` crate). -/
abbrev Witness := Nat

/-- Modelled from the spec: the black-box function names.  The list of
primitives is taken from the `PartialWitnessGenerator` trait in
`src/acvm/src/lib.rs`, which declares one method per primitive. -/
inductive BlackBoxFunc where
  | AES
  | AND
  | XOR
  | RANGE
  | SHA256
  | Blake2s
  | ComputeMerkleRoot
  | SchnorrVerify
  | Pedersen
  | HashToField128Security
  | EcdsaSecp256k1
  | FixedBaseScalarMul
  | Keccak256
deriving DecidableEq, Repr

/-- Modelled from the spec: a typed input descriptor of a black-box call —
a variable together with a bit width. -/
structure FunctionInput where
  witness : Witness
  num_bits : Nat
deriving DecidableEq, Repr

/-- Modelled from the spec: a black-box function call opcode payload:
a primitive name, typed input descriptors and output variables. -/
structure BlackBoxFuncCall where
  name : BlackBoxFunc
  inputs : List FunctionInput
  outputs : List Witness
deriving DecidableEq, Repr

/-- Modelled from the spec: an expression is a sum of quadratic products,
a sum of linear terms, and a constant, over a prime field `F`. -/
structure Expression (F : Type) where
  mul_terms : List (F × Witness × Witness)
  linear_combinations : List (F × Witness)
  q_c : F
deriving DecidableEq

/-- Modelled from the spec: a directive is a pure computational hint; the one
directive in evidence (used by the solver test in `src/acvm/src/lib.rs`) is
`Invert { x, result }`, computing the multiplicative inverse of `x` into
`result` (with inverse of zero defined as zero). -/
inductive Directive where
  | Invert (x : Witness) (result : Witness)
deriving DecidableEq, Repr

/-- Modelled from the spec: an oracle opcode payload — a named request for an
externally computed value; `input_values`/`output_values` start empty. -/
structure OracleData (F : Type) where
  name : String
  inputs : List (Expression F)
  input_values : List F
  outputs : List Witness
  output_values : List F
deriving DecidableEq

/-- Modelled from the spec: the opcode variants.  The `Block` memory-trace
payload is kept opaque (an identifier), as the spec flags its internal
semantics as unobservable from the available surface. -/
inductive Opcode (F : Type) where
  | Arithmetic (e : Expression F)
  | BlackBoxFuncCall (call : Acvm.BlackBoxFuncCall)
  | Directive (d : Acvm.Directive)
  | Oracle (data : OracleData F)
  | Block (id : Nat)
deriving DecidableEq

/-- Modelled from the spec: the set of public-input (or return-value)
variables of a circuit. -/
structure PublicInputs where
  indices : List Witness
deriving DecidableEq, Repr

/-- Modelled from the spec: a circuit is the highest allocated witness index,
an ordered opcode list, the public parameters and the return values. -/
structure Circuit (F : Type) where
  current_witness_index : Nat
  opcodes : List (Opcode F)
  public_parameters : PublicInputs
  return_values : PublicInputs
deriving DecidableEq

/-! ## The range-subsumption optimizer

Embedded from `src/acvm/src/compiler/optimizers/redundant_range.rs`.
The two `expect` calls of the source (panics) are modelled as the two
constructors of `RangePanic`. -/

/-- The two panic branches of `redundant_range.rs`: the
`expect("we expect there to be one input for a range call")` in
`extract_range_opcode`, and the
`expect("Could not find witness. …")` in `replace_redundant_ranges`. -/
inductive RangePanic where
  | noRangeInput
  | witnessNotFound
deriving DecidableEq, Repr

variable {F : Type}

/-- Embeds `extract_range_opcode`: returns the `(witness, num_bits)` pair of
the first input descriptor if the opcode is a black-box call named `RANGE`
(panicking — an error here — when such a call has no input descriptor), and
`none` for every other opcode. -/
def extract_range_opcode : Opcode F → Except RangePanic (Option (Witness × Nat))
  | .BlackBoxFuncCall func_call =>
    if func_call.name = BlackBoxFunc.RANGE then
      match func_call.inputs with
      | [] => .error RangePanic.noRangeInput
      | func_input :: _ => .ok (some (func_input.witness, func_input.num_bits))
    else
      .ok none
  | _ => .ok none

/-- Total classifier used in statements: the `(witness, num_bits)` pair of a
well-formed range opcode, `none` otherwise.  It agrees with
`extract_range_opcode` on every non-panicking path. -/
def rangeOf : Opcode F → Option (Witness × Nat)
  | .BlackBoxFuncCall func_call =>
    if func_call.name = BlackBoxFunc.RANGE then
      match func_call.inputs with
      | [] => none
      | func_input :: _ => some (func_input.witness, func_input.num_bits)
    else
      none
  | _ => none

/-- The loop body of `collect_ranges`, threading the `witness_to_bit_sizes`
map (a finite map, modelled as a function to `Option Nat`) through the opcode
list.  A stored width is replaced only when the new width is strictly
smaller (`old_range_bits > num_bits` in the source). -/
def collect_ranges_loop (m : Witness → Option Nat) :
    List (Opcode F) → Except RangePanic (Witness → Option Nat)
  | [] => .ok m
  | opcode :: rest =>
    match extract_range_opcode opcode with
    | .error e => .error e
    | .ok none => collect_ranges_loop m rest
    | .ok (some (witness, num_bits)) =>
      let should_replace : Bool :=
        match m witness with
        | some old_range_bits => decide (num_bits < old_range_bits)
        | none => true
      collect_ranges_loop
        (if should_replace then
          fun x => if x = witness then some num_bits else m x
        else m) rest

/-- Embeds `collect_ranges`: maps each witness that appears in a range opcode
to the lowest bit size it has been constrained to. -/
def collect_ranges (circuit : Circuit F) : Except RangePanic (Witness → Option Nat) :=
  collect_ranges_loop (fun _ => none) circuit.opcodes

/-- Embeds the `RangeOptimizer` struct: the collected lowest-bit-size map
together with the circuit. -/
structure RangeOptimizer (F : Type) where
  lists : Witness → Option Nat
  circuit : Circuit F

/-- Embeds `RangeOptimizer::new`: collects all known range constraints from
the circuit. -/
def RangeOptimizer.new (circuit : Circuit F) : Except RangePanic (RangeOptimizer F) :=
  match collect_ranges circuit with
  | .error e => .error e
  | .ok range_list => .ok { lists := range_list, circuit := circuit }

/-- The loop body of `replace_redundant_ranges`, threading the
`already_seen_witness` set (modelled as a list) through the opcode list and
building the optimized opcode list. -/
def replace_loop (lists : Witness → Option Nat) (seen : List Witness) :
    List (Opcode F) → Except RangePanic (List (Opcode F))
  | [] => .ok []
  | opcode :: rest =>
    match extract_range_opcode opcode with
    | .error e => .error e
    | .ok none =>
      match replace_loop lists seen rest with
      | .error e => .error e
      | .ok out => .ok (opcode :: out)
    | .ok (some (witness, num_bits)) =>
      if witness ∈ seen then
        replace_loop lists seen rest
      else
        match lists witness with
        | none => .error RangePanic.witnessNotFound
        | some stored_num_bits =>
          if num_bits ≤ stored_num_bits then
            match replace_loop lists (witness :: seen) rest with
            | .error e => .error e
            | .ok out => .ok (opcode :: out)
          else
            replace_loop lists seen rest

/-- Embeds `RangeOptimizer::replace_redundant_ranges`: rebuilds the circuit,
keeping each witness's first lowest-bit-size range opcode and dropping the
redundant ones; all other circuit fields are copied unchanged. -/
def RangeOptimizer.replace_redundant_ranges (self : RangeOptimizer F) :
    Except RangePanic (Circuit F) :=
  match replace_loop self.lists [] self.circuit.opcodes with
  | .error e => .error e
  | .ok optimized_opcodes =>
    .ok { current_witness_index := self.circuit.current_witness_index
          opcodes := optimized_opcodes
          public_parameters := self.circuit.public_parameters
          return_values := self.circuit.return_values }

/-- The full optimizer pass as used by the compiler:
`RangeOptimizer::new(circuit).replace_redundant_ranges()`. -/
def range_optimize (circuit : Circuit F) : Except RangePanic (Circuit F) :=
  match RangeOptimizer.new circuit with
  | .error e => .error e
  | .ok optimizer => optimizer.replace_redundant_ranges


/-! ## Statement-side vocabulary for the optimizer claims -/

/-- `true` iff the opcode is a (well-formed) range check on the witness `w`. -/
def rangeOnW (w : Witness) (op : Opcode F) : Bool :=
  match rangeOf op with
  | some (w2, _) => decide (w2 = w)
  | none => false

/-- The bit widths of all (well-formed) range checks on `w` in the list, in
original order. -/
def widthsOn (l : List (Opcode F)) (w : Witness) : List Nat :=
  l.filterMap (fun op =>
    match rangeOf op with
    | some (w2, nb) => if w2 = w then some nb else none
    | none => none)

/-- The minimum of a list of widths (`none` on the empty list). -/
def minWidth? (ns : List Nat) : Option Nat :=
  match ns with
  | [] => none
  | n :: rest => some (List.foldl min n rest)

/-- Folding a list of widths into an optional running minimum. -/
def minFold (o : Option Nat) (ns : List Nat) : Option Nat :=
  match o with
  | some k => some (List.foldl min k ns)
  | none => minWidth? ns

/-- `true` unless the opcode is a `RANGE` black-box call without input
descriptors (the shape on which `extract_range_opcode` panics). -/
def rangeCallOkB : Opcode F → Bool
  | .BlackBoxFuncCall fc =>
    if fc.name = BlackBoxFunc.RANGE then decide (fc.inputs ≠ []) else true
  | _ => true

/-- The claims' precondition: every `RANGE` black-box call of the circuit has
at least one input descriptor. -/
def RangeWellFormed (c : Circuit F) : Prop :=
  ∀ op ∈ c.opcodes, rangeCallOkB op = true

instance (c : Circuit F) : Decidable (RangeWellFormed c) :=
  decidable_of_iff (∀ op ∈ c.opcodes, rangeCallOkB op = true) Iff.rfl

/-- `extract_range_opcode` never panics on the opcodes of `l`. -/
def ExtractOk (l : List (Opcode F)) : Prop :=
  ∀ op ∈ l, extract_range_opcode op = Except.ok (rangeOf op)

/-- The map `m` assigns to the witness of every range check of `l` a width
that is at most the width of that range check. -/
def MinMap (m : Witness → Option Nat) (l : List (Opcode F)) : Prop :=
  ∀ op ∈ l, ∀ w nb, rangeOf op = some (w, nb) → ∃ s, m w = some s ∧ s ≤ nb

/-! ### Basic lemmas about the vocabulary -/

theorem extract_ok_of_rangeCallOkB {op : Opcode F} (h : rangeCallOkB op = true) :
    extract_range_opcode op = Except.ok (rangeOf op) := by
  cases op with
  | BlackBoxFuncCall fc =>
    by_cases hn : fc.name = BlackBoxFunc.RANGE
    · cases hi : fc.inputs with
      | nil => simp [rangeCallOkB, hn, hi] at h
      | cons i rest => simp [extract_range_opcode, rangeOf, hn, hi]
    · simp [extract_range_opcode, rangeOf, hn]
  | Arithmetic e => rfl
  | Directive d => rfl
  | Oracle data => rfl
  | Block id => rfl

theorem rangeCallOkB_of_extract_ok {op : Opcode F} {r}
    (h : extract_range_opcode op = Except.ok r) : rangeCallOkB op = true := by
  cases op with
  | BlackBoxFuncCall fc =>
    by_cases hn : fc.name = BlackBoxFunc.RANGE
    · cases hi : fc.inputs with
      | nil => simp [extract_range_opcode, hn, hi] at h
      | cons i rest => simp [rangeCallOkB, hn, hi]
    · simp [rangeCallOkB, hn]
  | Arithmetic e => rfl
  | Directive d => rfl
  | Oracle data => rfl
  | Block id => rfl

theorem extract_ok_rangeOf {op : Opcode F} {r}
    (h : extract_range_opcode op = Except.ok r) : r = rangeOf op := by
  have hok := extract_ok_of_rangeCallOkB (rangeCallOkB_of_extract_ok h)
  rw [hok] at h
  exact (Except.ok.injEq _ _ ▸ h).symm

theorem widthsOn_cons (op : Opcode F) (l : List (Opcode F)) (w : Witness) :
    widthsOn (op :: l) w =
      (match rangeOf op with
       | some (w2, nb) => if w2 = w then nb :: widthsOn l w else widthsOn l w
       | none => widthsOn l w) := by
  cases hro : rangeOf op with
  | none => simp [widthsOn, List.filterMap_cons, hro]
  | some p =>
    obtain ⟨w2, nb⟩ := p
    by_cases hw : w2 = w <;> simp [widthsOn, List.filterMap_cons, hro, hw]

theorem minFold_cons (o : Option Nat) (n : Nat) (ns : List Nat) :
    minFold o (n :: ns) =
      minFold (some (match o with | none => n | some k => min k n)) ns := by
  cases o <;> rfl

theorem minFold_none (ns : List Nat) : minFold none ns = minWidth? ns := rfl

theorem foldl_min_le_init : ∀ (ns : List Nat) (a : Nat), List.foldl min a ns ≤ a := by
  intro ns
  induction ns with
  | nil => intro a; simp
  | cons n rest ih =>
    intro a
    calc List.foldl min (min a n) rest ≤ min a n := ih (min a n)
    _ ≤ a := min_le_left a n

theorem foldl_min_le_mem : ∀ (ns : List Nat) (a n : Nat), n ∈ ns →
    List.foldl min a ns ≤ n := by
  intro ns
  induction ns with
  | nil => intro a n h; cases h
  | cons k rest ih =>
    intro a n h
    rcases List.mem_cons.mp h with rfl | h2
    · calc List.foldl min (min a n) rest ≤ min a n := foldl_min_le_init _ _
      _ ≤ n := min_le_right a n
    · exact ih (min a k) n h2

theorem foldl_min_mem : ∀ (ns : List Nat) (a : Nat),
    List.foldl min a ns = a ∨ List.foldl min a ns ∈ ns := by
  intro ns
  induction ns with
  | nil => intro a; left; rfl
  | cons n rest ih =>
    intro a
    rcases ih (min a n) with h | h
    · rcases Nat.le_total a n with hle | hle
      · left
        simp only [List.foldl_cons, h]
        exact min_eq_left hle
      · right
        rw [List.foldl_cons, h, min_eq_right hle]
        exact List.mem_cons_self _ _
    · right
      simp only [List.foldl_cons]
      exact List.mem_cons_of_mem _ h

theorem minWidth?_mem {ns : List Nat} {m : Nat} (h : minWidth? ns = some m) : m ∈ ns := by
  cases ns with
  | nil => cases h
  | cons n rest =>
    have hm : List.foldl min n rest = m := Option.some.inj h
    rcases foldl_min_mem rest n with h2 | h2
    · rw [hm] at h2; rw [← h2]; exact List.mem_cons_self _ _
    · rw [hm] at h2; exact List.mem_cons_of_mem _ h2

theorem minWidth?_le {ns : List Nat} {m : Nat} (h : minWidth? ns = some m) :
    ∀ n ∈ ns, m ≤ n := by
  cases ns with
  | nil => cases h
  | cons k rest =>
    have hm : List.foldl min k rest = m := Option.some.inj h
    intro n hn
    rcases List.mem_cons.mp hn with rfl | h2
    · rw [← hm]; exact foldl_min_le_init rest n
    · rw [← hm]; exact foldl_min_le_mem rest k n h2

theorem minWidth?_eq_none {ns : List Nat} : minWidth? ns = none ↔ ns = [] := by
  cases ns <;> simp [minWidth?]

theorem mem_widthsOn {l : List (Opcode F)} {w : Witness} {nb : Nat} :
    nb ∈ widthsOn l w ↔ ∃ op ∈ l, rangeOf op = some (w, nb) := by
  constructor
  · intro h
    rcases List.mem_filterMap.mp h with ⟨op, hop, hf⟩
    refine ⟨op, hop, ?_⟩
    cases hro : rangeOf op with
    | none => rw [hro] at hf; cases hf
    | some p =>
      obtain ⟨w2, nb2⟩ := p
      rw [hro] at hf
      by_cases hw : w2 = w
      · simp [hw] at hf
        rw [hw, hf]
      · simp [hw] at hf
  · rintro ⟨op, hop, hro⟩
    exact List.mem_filterMap.mpr ⟨op, hop, by simp [hro]⟩


/-! ### The collection pass: characterization and totality -/

theorem collect_ranges_loop_spec :
    ∀ (l : List (Opcode F)) (m0 : Witness → Option Nat), ExtractOk l →
      ∃ m, collect_ranges_loop m0 l = Except.ok m ∧
        ∀ w, m w = minFold (m0 w) (widthsOn l w) := by
  intro l
  induction l with
  | nil =>
    intro m0 _
    refine ⟨m0, rfl, ?_⟩
    intro w
    cases hmw : m0 w <;> rfl
  | cons op rest ih =>
    intro m0 hex
    have hop := hex op (List.mem_cons_self _ _)
    have hrest : ExtractOk rest := fun op2 h2 => hex op2 (List.mem_cons_of_mem _ h2)
    cases hro : rangeOf op with
    | none =>
      rw [hro] at hop
      obtain ⟨m, hm, hchar⟩ := ih m0 hrest
      refine ⟨m, ?_, ?_⟩
      · rw [collect_ranges_loop, hop]
        exact hm
      · intro w
        rw [hchar w, widthsOn_cons, hro]
    | some p =>
      obtain ⟨w1, nb⟩ := p
      rw [hro] at hop
      set m1 : Witness → Option Nat :=
        (if (match m0 w1 with
             | some old_range_bits => decide (nb < old_range_bits)
             | none => true) then
          fun x => if x = w1 then some nb else m0 x
        else m0) with hm1def
      obtain ⟨m, hm, hchar⟩ := ih m1 hrest
      have hm1 : ∀ w, m1 w =
          if w = w1 then
            some (match m0 w1 with | none => nb | some k => min k nb)
          else m0 w := by
        intro w
        by_cases hw : w = w1
        · subst hw
          cases ho : m0 w with
          | none => simp [hm1def, ho]
          | some old =>
            by_cases hlt : nb < old
            · have : min old nb = nb := by omega
              simp [hm1def, ho, hlt, this]
            · have : min old nb = old := by omega
              simp [hm1def, ho, hlt, this]
        · cases ho : m0 w1 with
          | none => simp [hm1def, ho, hw]
          | some old =>
            by_cases hlt : nb < old <;> simp [hm1def, ho, hlt, hw]
      refine ⟨m, ?_, ?_⟩
      · rw [collect_ranges_loop, hop]
        exact hm
      · intro w
        rw [hchar w, widthsOn_cons, hro]
        dsimp only
        by_cases hw : w1 = w
        · subst hw
          rw [if_pos rfl, minFold_cons, hm1 w1, if_pos rfl]
        · rw [if_neg hw, hm1 w, if_neg (fun h => hw h.symm)]

theorem collect_ranges_spec {c : Circuit F} {m : Witness → Option Nat}
    (h : collect_ranges c = Except.ok m) (hex : ExtractOk c.opcodes) :
    ∀ w, m w = minWidth? (widthsOn c.opcodes w) := by
  obtain ⟨m2, hm2, hchar⟩ := collect_ranges_loop_spec c.opcodes (fun _ => none) hex
  rw [collect_ranges] at h
  rw [h] at hm2
  cases hm2
  intro w
  rw [hchar w, minFold_none]

theorem extractOk_of_collect_ok :
    ∀ (l : List (Opcode F)) (m0 m : Witness → Option Nat),
      collect_ranges_loop m0 l = Except.ok m → ExtractOk l := by
  intro l
  induction l with
  | nil =>
    intro m0 m _ op hop
    cases hop
  | cons op rest ih =>
    intro m0 m h op2 hop2
    rw [collect_ranges_loop] at h
    cases hext : extract_range_opcode op with
    | error e => rw [hext] at h; cases h
    | ok r =>
      have hr := extract_ok_rangeOf hext
      subst hr
      rw [hext] at h
      rcases List.mem_cons.mp hop2 with rfl | h2
      · exact hext
      · cases hro : rangeOf op with
        | none =>
          rw [hro] at h
          exact ih _ _ h op2 h2
        | some p =>
          obtain ⟨w1, nb⟩ := p
          rw [hro] at h
          exact ih _ _ h op2 h2

theorem minMap_of_minWidth {l : List (Opcode F)} {m : Witness → Option Nat}
    (hchar : ∀ w, m w = minWidth? (widthsOn l w)) : MinMap m l := by
  intro op hop w nb hro
  have hmem : nb ∈ widthsOn l w := mem_widthsOn.mpr ⟨op, hop, hro⟩
  cases hmw : minWidth? (widthsOn l w) with
  | none =>
    rw [minWidth?_eq_none] at hmw
    rw [hmw] at hmem
    cases hmem
  | some s =>
    exact ⟨s, by rw [hchar w, hmw], minWidth?_le hmw nb hmem⟩

/-! ### The rewrite pass: totality -/

theorem replace_loop_total :
    ∀ (l : List (Opcode F)) (lists : Witness → Option Nat) (seen : List Witness),
      ExtractOk l → MinMap lists l →
      ∃ out, replace_loop lists seen l = Except.ok out := by
  intro l
  induction l with
  | nil =>
    intro lists seen _ _
    exact ⟨[], rfl⟩
  | cons op rest ih =>
    intro lists seen hex hmm
    have hop := hex op (List.mem_cons_self _ _)
    have hrest : ExtractOk rest := fun op2 h2 => hex op2 (List.mem_cons_of_mem _ h2)
    have hmmrest : MinMap lists rest :=
      fun op2 h2 => hmm op2 (List.mem_cons_of_mem _ h2)
    cases hro : rangeOf op with
    | none =>
      rw [hro] at hop
      obtain ⟨out, hout⟩ := ih lists seen hrest hmmrest
      refine ⟨op :: out, ?_⟩
      rw [replace_loop, hop, hout]
    | some p =>
      obtain ⟨w1, nb⟩ := p
      rw [hro] at hop
      obtain ⟨s, hs, hsle⟩ := hmm op (List.mem_cons_self _ _) w1 nb hro
      by_cases hseen : w1 ∈ seen
      · obtain ⟨out, hout⟩ := ih lists seen hrest hmmrest
        refine ⟨out, ?_⟩
        simp only [replace_loop, hop]
        rw [if_pos hseen]
        exact hout
      · by_cases hle : nb ≤ s
        · obtain ⟨out, hout⟩ := ih lists (w1 :: seen) hrest hmmrest
          refine ⟨op :: out, ?_⟩
          simp only [replace_loop, hop]
          rw [if_neg hseen, hs]
          dsimp only
          rw [if_pos hle, hout]
        · obtain ⟨out, hout⟩ := ih lists seen hrest hmmrest
          refine ⟨out, ?_⟩
          simp only [replace_loop, hop]
          rw [if_neg hseen, hs]
          dsimp only
          rw [if_neg hle]
          exact hout

/-! ### Inversion and assembly of the full pass -/

theorem range_optimize_inversion {c c2 : Circuit F}
    (h : range_optimize c = Except.ok c2) :
    ∃ m, collect_ranges c = Except.ok m ∧
      replace_loop m [] c.opcodes = Except.ok c2.opcodes ∧
      c2.current_witness_index = c.current_witness_index ∧
      c2.public_parameters = c.public_parameters ∧
      c2.return_values = c.return_values := by
  cases hcol : collect_ranges c with
  | error e =>
    rw [range_optimize, RangeOptimizer.new, hcol] at h
    cases h
  | ok m =>
    simp only [range_optimize, RangeOptimizer.new, hcol,
      RangeOptimizer.replace_redundant_ranges] at h
    cases hrep : replace_loop m [] c.opcodes with
    | error e =>
      rw [hrep] at h
      cases h
    | ok out =>
      rw [hrep] at h
      have h2 := (Except.ok.inj h).symm
      subst h2
      exact ⟨m, rfl, hrep, rfl, rfl, rfl⟩

theorem range_optimize_build {c : Circuit F} {m : Witness → Option Nat}
    {out : List (Opcode F)}
    (hcol : collect_ranges c = Except.ok m)
    (hrep : replace_loop m [] c.opcodes = Except.ok out) :
    range_optimize c = Except.ok
      { current_witness_index := c.current_witness_index
        opcodes := out
        public_parameters := c.public_parameters
        return_values := c.return_values } := by
  simp only [range_optimize, RangeOptimizer.new, hcol,
    RangeOptimizer.replace_redundant_ranges, hrep]


/-! ### The rewrite pass: frame facts (sublist, untouched non-range opcodes) -/

theorem replace_loop_frame :
    ∀ (l : List (Opcode F)) (lists : Witness → Option Nat) (seen : List Witness)
      (out : List (Opcode F)),
      replace_loop lists seen l = Except.ok out →
      out.Sublist l ∧
        out.filter (fun op => (rangeOf op).isNone) =
          l.filter (fun op => (rangeOf op).isNone) := by
  intro l
  induction l with
  | nil =>
    intro lists seen out h
    have h2 := (Except.ok.inj h).symm
    subst h2
    exact ⟨List.Sublist.refl [], rfl⟩
  | cons op rest ih =>
    intro lists seen out h
    cases hext : extract_range_opcode op with
    | error e =>
      simp only [replace_loop, hext] at h
      cases h
    | ok r =>
      have hr := extract_ok_rangeOf hext
      subst hr
      cases hro : rangeOf op with
      | none =>
        rw [hro] at hext
        simp only [replace_loop, hext] at h
        cases hrec : replace_loop lists seen rest with
        | error e => rw [hrec] at h; cases h
        | ok out2 =>
          rw [hrec] at h
          have h2 := (Except.ok.inj h).symm
          subst h2
          obtain ⟨hsub, hfil⟩ := ih lists seen out2 hrec
          refine ⟨List.Sublist.cons₂ op hsub, ?_⟩
          rw [List.filter_cons_of_pos, List.filter_cons_of_pos, hfil]
          · simp [hro]
          · simp [hro]
      | some p =>
        obtain ⟨w1, nb⟩ := p
        rw [hro] at hext
        simp only [replace_loop, hext] at h
        have hpos : (rangeOf op).isNone = false := by simp [hro]
        by_cases hseen : w1 ∈ seen
        · rw [if_pos hseen] at h
          obtain ⟨hsub, hfil⟩ := ih lists seen out h
          refine ⟨List.Sublist.cons op hsub, ?_⟩
          rw [List.filter_cons_of_neg, hfil]
          simp [hro]
        · rw [if_neg hseen] at h
          cases hlw : lists w1 with
          | none => rw [hlw] at h; cases h
          | some stored =>
            rw [hlw] at h
            dsimp only at h
            by_cases hle : nb ≤ stored
            · rw [if_pos hle] at h
              cases hrec : replace_loop lists (w1 :: seen) rest with
              | error e => rw [hrec] at h; cases h
              | ok out2 =>
                rw [hrec] at h
                have h2 := (Except.ok.inj h).symm
                subst h2
                obtain ⟨hsub, hfil⟩ := ih lists (w1 :: seen) out2 hrec
                refine ⟨List.Sublist.cons₂ op hsub, ?_⟩
                rw [List.filter_cons_of_neg, List.filter_cons_of_neg, hfil]
                · simp [hro]
                · simp [hro]
            · rw [if_neg hle] at h
              obtain ⟨hsub, hfil⟩ := ih lists seen out h
              refine ⟨List.Sublist.cons op hsub, ?_⟩
              rw [List.filter_cons_of_neg, hfil]
              simp [hro]

/-! ### The rewrite pass: per-witness characterization of surviving range checks -/

theorem replace_loop_filter_char :
    ∀ (l : List (Opcode F)) (lists : Witness → Option Nat) (seen : List Witness)
      (out : List (Opcode F)),
      replace_loop lists seen l = Except.ok out → MinMap lists l →
      ∀ w : Witness,
        (∀ s, lists w = some s →
          out.filter (fun op => rangeOnW w op) =
            if w ∈ seen then []
            else (l.find? (fun op => decide (rangeOf op = some (w, s)))).toList) ∧
        (lists w = none → out.filter (fun op => rangeOnW w op) = []) := by
  intro l
  induction l with
  | nil =>
    intro lists seen out h hmm w
    have h2 := (Except.ok.inj h).symm
    subst h2
    constructor
    · intro s hs
      by_cases hseen : w ∈ seen <;> simp [hseen, List.find?]
    · intro _
      rfl
  | cons op rest ih =>
    intro lists seen out h hmm w
    have hmmrest : MinMap lists rest :=
      fun op2 h2 => hmm op2 (List.mem_cons_of_mem _ h2)
    cases hext : extract_range_opcode op with
    | error e =>
      simp only [replace_loop, hext] at h
      cases h
    | ok r =>
      have hr := extract_ok_rangeOf hext
      subst hr
      cases hro : rangeOf op with
      | none =>
        rw [hro] at hext
        simp only [replace_loop, hext] at h
        cases hrec : replace_loop lists seen rest with
        | error e => rw [hrec] at h; cases h
        | ok out2 =>
          rw [hrec] at h
          have h2 := (Except.ok.inj h).symm
          subst h2
          have hskip : rangeOnW w op = false := by simp [rangeOnW, hro]
          have hpfalse : ∀ s : Nat,
              (fun op2 => decide (rangeOf op2 = some (w, s))) op = false := by
            intro s
            simp [hro]
          obtain ⟨ih1, ih2⟩ := ih lists seen out2 hrec hmmrest w
          constructor
          · intro s hs
            rw [List.filter_cons_of_neg (by simp [hskip]), ih1 s hs]
            by_cases hseen : w ∈ seen
            · rw [if_pos hseen, if_pos hseen]
            · rw [if_neg hseen, if_neg hseen,
                List.find?_cons_of_neg _ (by simp [hro])]
          · intro hs
            rw [List.filter_cons_of_neg (by simp [hskip])]
            exact ih2 hs
      | some p =>
        obtain ⟨w1, nb⟩ := p
        rw [hro] at hext
        simp only [replace_loop, hext] at h
        obtain ⟨s1, hs1, hs1le⟩ := hmm op (List.mem_cons_self _ _) w1 nb hro
        by_cases hseen1 : w1 ∈ seen
        · rw [if_pos hseen1] at h
          obtain ⟨ih1, ih2⟩ := ih lists seen out h hmmrest w
          constructor
          · intro s hs
            rw [ih1 s hs]
            by_cases hww : w1 = w
            · subst hww
              rw [if_pos hseen1, if_pos hseen1]
            · by_cases hseen : w ∈ seen
              · rw [if_pos hseen, if_pos hseen]
              · rw [if_neg hseen, if_neg hseen,
                  List.find?_cons_of_neg _ (by simp [hro, hww])]
          · exact ih2
        · rw [if_neg hseen1, hs1] at h
          dsimp only at h
          by_cases hle : nb ≤ s1
          · rw [if_pos hle] at h
            have hnb : nb = s1 := Nat.le_antisymm hle hs1le
            subst hnb
            cases hrec : replace_loop lists (w1 :: seen) rest with
            | error e => rw [hrec] at h; cases h
            | ok out2 =>
              rw [hrec] at h
              have h2 := (Except.ok.inj h).symm
              subst h2
              obtain ⟨ih1, ih2⟩ := ih lists (w1 :: seen) out2 hrec hmmrest w
              constructor
              · intro s hs
                by_cases hww : w1 = w
                · subst hww
                  have hss : s = nb := by
                    rw [hs1] at hs
                    exact (Option.some.inj hs).symm
                  subst hss
                  rw [List.filter_cons_of_pos (by simp [rangeOnW, hro]),
                    ih1 s hs1, if_pos (List.mem_cons_self _ _), if_neg hseen1,
                    List.find?_cons_of_pos _ (by simp [hro])]
                  rfl
                · rw [List.filter_cons_of_neg (by simp [rangeOnW, hro, hww]),
                    ih1 s hs]
                  by_cases hseen : w ∈ seen
                  · rw [if_pos (List.mem_cons_of_mem _ hseen), if_pos hseen]
                  · rw [if_neg (by
                      intro hmem
                      rcases List.mem_cons.mp hmem with h3 | h3
                      · exact hww h3.symm
                      · exact hseen h3), if_neg hseen,
                      List.find?_cons_of_neg _ (by simp [hro, hww])]
              · intro hs
                have hww : w1 ≠ w := by
                  intro h3
                  rw [h3, hs] at hs1
                  cases hs1
                rw [List.filter_cons_of_neg (by simp [rangeOnW, hro, hww])]
                exact ih2 hs
          · rw [if_neg hle] at h
            obtain ⟨ih1, ih2⟩ := ih lists seen out h hmmrest w
            constructor
            · intro s hs
              by_cases hww : w1 = w
              · subst hww
                have hss : s = s1 := by
                  rw [hs1] at hs
                  exact (Option.some.inj hs).symm
                subst hss
                rw [ih1 s hs, if_neg hseen1, if_neg hseen1,
                  List.find?_cons_of_neg _ (by
                    intro h3
                    simp only [hro, decide_eq_true_eq, Option.some.injEq,
                      Prod.mk.injEq] at h3
                    omega)]
              · rw [ih1 s hs]
                by_cases hseen : w ∈ seen
                · rw [if_pos hseen, if_pos hseen]
                · rw [if_neg hseen, if_neg hseen,
                    List.find?_cons_of_neg _ (by simp [hro, hww])]
            · exact ih2


theorem widthsOn_eq_filter :
    ∀ (l : List (Opcode F)) (w : Witness),
      widthsOn l w = widthsOn (l.filter (fun op => rangeOnW w op)) w := by
  intro l
  induction l with
  | nil => intro w; rfl
  | cons op rest ih =>
    intro w
    cases hro : rangeOf op with
    | none =>
      rw [List.filter_cons_of_neg (by simp [rangeOnW, hro]), widthsOn_cons, hro]
      exact ih w
    | some p =>
      obtain ⟨w1, nb⟩ := p
      by_cases hw : w1 = w
      · subst hw
        rw [List.filter_cons_of_pos (by simp [rangeOnW, hro]), widthsOn_cons, hro,
          widthsOn_cons, hro]
        dsimp only
        rw [if_pos rfl, if_pos rfl, ih w1]
      · rw [List.filter_cons_of_neg (by simp [rangeOnW, hro, hw]), widthsOn_cons, hro]
        dsimp only
        rw [if_neg hw]
        exact ih w

/-- The heart of the minimality claim: after a successful run of the
optimizer, the range checks surviving on each witness are exactly described
by the minimum width of the original range checks on that witness. -/
theorem range_optimize_range_filter {c c2 : Circuit F}
    (hopt : range_optimize c = Except.ok c2) (w : Witness) :
    (widthsOn c.opcodes w = [] →
      c2.opcodes.filter (fun op => rangeOnW w op) = []) ∧
    (∀ mw, minWidth? (widthsOn c.opcodes w) = some mw →
      ∃ op0, c.opcodes.find? (fun op => decide (rangeOf op = some (w, mw))) = some op0 ∧
        c2.opcodes.filter (fun op => rangeOnW w op) = [op0] ∧
        rangeOf op0 = some (w, mw)) := by
  obtain ⟨m, hcol, hrep, _, _, _⟩ := range_optimize_inversion hopt
  have hex : ExtractOk c.opcodes := extractOk_of_collect_ok _ _ _ hcol
  have hchar := collect_ranges_spec hcol hex
  have hmm : MinMap m c.opcodes := minMap_of_minWidth hchar
  obtain ⟨hfil1, hfil2⟩ := replace_loop_filter_char c.opcodes m [] c2.opcodes hrep hmm w
  constructor
  · intro hempty
    apply hfil2
    rw [hchar w, hempty]
    rfl
  · intro mw hmw
    have hsw : m w = some mw := by rw [hchar w, hmw]
    have hfil := hfil1 mw hsw
    rw [if_neg (List.not_mem_nil w)] at hfil
    have hmem : mw ∈ widthsOn c.opcodes w := minWidth?_mem hmw
    obtain ⟨opm, hopm, hrom⟩ := mem_widthsOn.mp hmem
    cases hfind : c.opcodes.find? (fun op => decide (rangeOf op = some (w, mw))) with
    | none =>
      have h2 := List.find?_eq_none.mp hfind opm hopm
      rw [hrom] at h2
      simp at h2
    | some op0 =>
      refine ⟨op0, rfl, ?_, ?_⟩
      · rw [hfil, hfind]
        rfl
      · have h2 := List.find?_some hfind
        exact of_decide_eq_true h2

/-! ### The rewrite pass is the identity on already-optimized opcode lists -/

theorem replace_loop_fixed :
    ∀ (l : List (Opcode F)) (lists : Witness → Option Nat) (seen : List Witness),
      ExtractOk l →
      (∀ op ∈ l, ∀ w nb, rangeOf op = some (w, nb) → lists w = some nb ∧ w ∉ seen) →
      (∀ w : Witness, (l.filter (fun op => rangeOnW w op)).length ≤ 1) →
      replace_loop lists seen l = Except.ok l := by
  intro l
  induction l with
  | nil => intro lists seen _ _ _; rfl
  | cons op rest ih =>
    intro lists seen hex hbound huniq
    have hext := hex op (List.mem_cons_self _ _)
    have hexrest : ExtractOk rest := fun op2 h2 => hex op2 (List.mem_cons_of_mem _ h2)
    cases hro : rangeOf op with
    | none =>
      rw [hro] at hext
      have hbrest : ∀ op2 ∈ rest, ∀ w nb, rangeOf op2 = some (w, nb) →
          lists w = some nb ∧ w ∉ seen :=
        fun op2 h2 => hbound op2 (List.mem_cons_of_mem _ h2)
      have hurest : ∀ w : Witness, (rest.filter (fun op2 => rangeOnW w op2)).length ≤ 1 := by
        intro w
        have h2 := huniq w
        rw [List.filter_cons_of_neg (by simp [rangeOnW, hro])] at h2
        exact h2
      simp only [replace_loop, hext, ih lists seen hexrest hbrest hurest]
    | some p =>
      obtain ⟨w1, nb⟩ := p
      rw [hro] at hext
      obtain ⟨hlw1, hw1seen⟩ := hbound op (List.mem_cons_self _ _) w1 nb hro
      have hfilcons : (op :: rest).filter (fun op2 => rangeOnW w1 op2) =
          op :: rest.filter (fun op2 => rangeOnW w1 op2) :=
        List.filter_cons_of_pos (by simp [rangeOnW, hro])
      have hrestnil : rest.filter (fun op2 => rangeOnW w1 op2) = [] := by
        have h2 := huniq w1
        rw [hfilcons] at h2
        simp only [List.length_cons] at h2
        exact List.length_eq_zero.mp (by omega)
      have hbrest : ∀ op2 ∈ rest, ∀ w nb2, rangeOf op2 = some (w, nb2) →
          lists w = some nb2 ∧ w ∉ (w1 :: seen) := by
        intro op2 h2 w nb2 hro2
        obtain ⟨hl2, hs2⟩ := hbound op2 (List.mem_cons_of_mem _ h2) w nb2 hro2
        refine ⟨hl2, ?_⟩
        intro hmem
        rcases List.mem_cons.mp hmem with h3 | h3
        · subst h3
          have hin : op2 ∈ rest.filter (fun op3 => rangeOnW w op3) :=
            List.mem_filter.mpr ⟨h2, by simp [rangeOnW, hro2]⟩
          rw [hrestnil] at hin
          cases hin
        · exact hs2 h3
      have hurest : ∀ w : Witness, (rest.filter (fun op2 => rangeOnW w op2)).length ≤ 1 := by
        intro w
        have h2 := huniq w
        by_cases hw : rangeOnW w op = true
        · rw [List.filter_cons_of_pos hw, List.length_cons] at h2
          have hee : (fun op2 : Opcode F => rangeOnW w op2) = rangeOnW w := rfl
          rw [hee]
          omega
        · rw [List.filter_cons_of_neg hw] at h2
          exact h2
      simp only [replace_loop, hext]
      rw [if_neg hw1seen, hlw1]
      dsimp only
      rw [if_pos (Nat.le_refl nb), ih lists (w1 :: seen) hexrest hbrest hurest]


/-! ## Concrete example circuits (used by the witness theorems) -/

/-- A range-check opcode on witness `w` with bit width `nb`, over `Int`. -/
def exRange (w : Witness) (nb : Nat) : Opcode Int :=
  Opcode.BlackBoxFuncCall
    { name := BlackBoxFunc.RANGE
      inputs := [{ witness := w, num_bits := nb }]
      outputs := [] }

/-- A trivial arithmetic opcode, over `Int`. -/
def exArith : Opcode Int :=
  Opcode.Arithmetic { mul_terms := [], linear_combinations := [], q_c := 0 }

/-- A sample circuit: two range checks on witness 1 (widths 32 and 16), one
arithmetic opcode, one range check on witness 2. -/
def exCircuit : Circuit Int :=
  { current_witness_index := 5
    opcodes := [exRange 1 32, exArith, exRange 1 16, exRange 2 23]
    public_parameters := ⟨[2]⟩
    return_values := ⟨[1]⟩ }

/-- The optimizer's output on `exCircuit`. -/
def exCircuitOpt : Circuit Int :=
  { current_witness_index := 5
    opcodes := [exArith, exRange 1 16, exRange 2 23]
    public_parameters := ⟨[2]⟩
    return_values := ⟨[1]⟩ }

theorem ex_opt : range_optimize exCircuit = Except.ok exCircuitOpt := rfl

/-! ## Claim theorems for the optimizer -/

/-- C1: for every input circuit in which every range black-box call has at
least one input descriptor, and every witness `w` with at least one range
check, the optimized circuit contains exactly one range-check opcode on `w`,
namely the first opcode (in original order) whose bit width equals the
minimum bit width among all original range checks on `w`. -/
theorem C1_minimal_range_survives {c c2 : Circuit F} {w : Witness}
    ( _h_wf : RangeWellFormed c) (hne : widthsOn c.opcodes w ≠ [])
    (hopt : range_optimize c = Except.ok c2) :
    ∃ mw op0,
      minWidth? (widthsOn c.opcodes w) = some mw ∧
      c.opcodes.find? (fun op => decide (rangeOf op = some (w, mw))) = some op0 ∧
      c2.opcodes.filter (fun op => rangeOnW w op) = [op0] := by
  cases hmw : minWidth? (widthsOn c.opcodes w) with
  | none => exact absurd (minWidth?_eq_none.mp hmw) hne
  | some mw =>
    obtain ⟨op0, hfind, hfil, _⟩ := (range_optimize_range_filter hopt w).2 mw hmw
    exact ⟨mw, op0, rfl, hfind, hfil⟩

theorem C1_witness :
    RangeWellFormed exCircuit ∧
      ∃ mw op0,
        minWidth? (widthsOn exCircuit.opcodes 1) = some mw ∧
        exCircuit.opcodes.find? (fun op => decide (rangeOf op = some (1, mw))) = some op0 ∧
        exCircuitOpt.opcodes.filter (fun op => rangeOnW 1 op) = [op0] :=
  ⟨by decide, C1_minimal_range_survives (by decide) (by decide) ex_opt⟩

/-- C2: for every run of the optimizer, the output opcode list is a sublist
of the input one (so the optimizer never modifies, reorders, or adds
opcodes), and the non-range opcodes of the output are exactly the non-range
opcodes of the input, in order (so only range checks are ever removed). -/
theorem C2_non_range_preserved {c c2 : Circuit F}
    (hopt : range_optimize c = Except.ok c2) :
    c2.opcodes.Sublist c.opcodes ∧
      c2.opcodes.filter (fun op => (rangeOf op).isNone) =
        c.opcodes.filter (fun op => (rangeOf op).isNone) := by
  obtain ⟨m, hcol, hrep, _, _, _⟩ := range_optimize_inversion hopt
  exact replace_loop_frame c.opcodes m [] c2.opcodes hrep

theorem C2_witness :
    exCircuitOpt.opcodes.Sublist exCircuit.opcodes ∧
      exCircuitOpt.opcodes.filter (fun op => (rangeOf op).isNone) =
        exCircuit.opcodes.filter (fun op => (rangeOf op).isNone) :=
  C2_non_range_preserved ex_opt

/-- C3: on a circuit whose range calls are well formed, `collect_ranges`
succeeds and maps each witness to the minimum bit width among all range
checks on it, and maps witnesses with no range check to nothing. -/
theorem C3_collect_ranges_minimum {c : Circuit F} ( h_wf : RangeWellFormed c) :
    ∃ m, collect_ranges c = Except.ok m ∧
      ∀ w, m w = minWidth? (widthsOn c.opcodes w) := by
  have hex : ExtractOk c.opcodes := fun op hop => extract_ok_of_rangeCallOkB ( h_wf op hop)
  obtain ⟨m, hm, hchar⟩ := collect_ranges_loop_spec c.opcodes (fun _ => none) hex
  refine ⟨m, hm, ?_⟩
  intro w
  rw [hchar w, minFold_none]

theorem C3_witness :
    RangeWellFormed exCircuit ∧
      ∃ m, collect_ranges exCircuit = Except.ok m ∧
        ∀ w, m w = minWidth? (widthsOn exCircuit.opcodes w) :=
  ⟨by decide, C3_collect_ranges_minimum (by decide)⟩

/-- C4: on every circuit in which every range black-box call has at least one
input descriptor, the optimizer is total: it reaches neither of its two panic
branches and returns a circuit. -/
theorem C4_optimizer_total {c : Circuit F} ( h_wf : RangeWellFormed c) :
    ∃ c2, range_optimize c = Except.ok c2 := by
  have hex : ExtractOk c.opcodes := fun op hop => extract_ok_of_rangeCallOkB ( h_wf op hop)
  obtain ⟨m, hm, hchar⟩ := collect_ranges_loop_spec c.opcodes (fun _ => none) hex
  have hchar2 : ∀ w, m w = minWidth? (widthsOn c.opcodes w) := by
    intro w
    rw [hchar w, minFold_none]
  obtain ⟨out, hout⟩ := replace_loop_total c.opcodes m [] hex (minMap_of_minWidth hchar2)
  exact ⟨_, range_optimize_build hm hout⟩

theorem C4_witness :
    RangeWellFormed exCircuit ∧ ∃ c2, range_optimize exCircuit = Except.ok c2 :=
  ⟨by decide, C4_optimizer_total (by decide)⟩

/-- C5: the optimizer is idempotent — running it on the circuit it produced
returns that circuit unchanged. -/
theorem C5_optimizer_idempotent {c c2 : Circuit F}
    (hopt : range_optimize c = Except.ok c2) :
    range_optimize c2 = Except.ok c2 := by
  obtain ⟨m, hcol, hrep, _, _, _⟩ := range_optimize_inversion hopt
  have hex : ExtractOk c.opcodes := extractOk_of_collect_ok _ _ _ hcol
  have hchar := collect_ranges_spec hcol hex
  have hmm : MinMap m c.opcodes := minMap_of_minWidth hchar
  obtain ⟨hsub, _⟩ := replace_loop_frame c.opcodes m [] c2.opcodes hrep
  have hex2 : ExtractOk c2.opcodes := fun op hop => hex op (hsub.subset hop)
  obtain ⟨m2, hm2, hchar2⟩ := collect_ranges_loop_spec c2.opcodes (fun _ => none) hex2
  have hcol2 : collect_ranges c2 = Except.ok m2 := hm2
  have hchar2b : ∀ w, m2 w = minWidth? (widthsOn c2.opcodes w) := by
    intro w
    rw [hchar2 w, minFold_none]
  have hfilsome : ∀ w s, m w = some s →
      ∃ op0, c2.opcodes.filter (fun op => rangeOnW w op) = [op0] ∧
        rangeOf op0 = some (w, s) := by
    intro w s hws
    have hmin : minWidth? (widthsOn c.opcodes w) = some s := by
      rw [← hchar w]
      exact hws
    obtain ⟨op0, _, hfil, hro0⟩ := (range_optimize_range_filter hopt w).2 s hmin
    exact ⟨op0, hfil, hro0⟩
  have hfilnone : ∀ w, m w = none →
      c2.opcodes.filter (fun op => rangeOnW w op) = [] := by
    intro w hws
    apply (range_optimize_range_filter hopt w).1
    rw [hchar w] at hws
    exact minWidth?_eq_none.mp hws
  have hbound : ∀ op ∈ c2.opcodes, ∀ w nb, rangeOf op = some (w, nb) →
      m2 w = some nb ∧ w ∉ ([] : List Witness) := by
    intro op hop w nb hro
    obtain ⟨s, hws, _⟩ := hmm op (hsub.subset hop) w nb hro
    obtain ⟨op0, hfil, hro0⟩ := hfilsome w s hws
    have hopin : op ∈ c2.opcodes.filter (fun op2 => rangeOnW w op2) :=
      List.mem_filter.mpr ⟨hop, by simp [rangeOnW, hro]⟩
    rw [hfil] at hopin
    have hopeq : op = op0 := by
      rcases List.mem_cons.mp hopin with h3 | h3
      · exact h3
      · cases h3
    subst hopeq
    rw [hro0] at hro
    have hnb : nb = s := ((Prod.mk.injEq _ _ _ _).mp (Option.some.inj hro.symm)).2
    subst hnb
    refine ⟨?_, List.not_mem_nil w⟩
    rw [hchar2b w, widthsOn_eq_filter, hfil, widthsOn_cons, hro0]
    dsimp only
    rw [if_pos rfl]
    rfl
  have huniq : ∀ w : Witness,
      (c2.opcodes.filter (fun op => rangeOnW w op)).length ≤ 1 := by
    intro w
    cases hws : m w with
    | none =>
      rw [hfilnone w hws]
      exact Nat.zero_le 1
    | some s =>
      obtain ⟨op0, hfil, _⟩ := hfilsome w s hws
      rw [hfil]
      exact Nat.le_refl 1
  have hfix := replace_loop_fixed c2.opcodes m2 [] hex2 hbound huniq
  exact range_optimize_build hcol2 hfix

theorem C5_witness : range_optimize exCircuitOpt = Except.ok exCircuitOpt :=
  C5_optimizer_idempotent ex_opt

/-- C9: the optimizer changes nothing but the opcode list — the output
circuit keeps the input circuit's witness index, public parameters and return
values. -/
theorem C9_circuit_fields_preserved {c c2 : Circuit F}
    (hopt : range_optimize c = Except.ok c2) :
    c2.current_witness_index = c.current_witness_index ∧
      c2.public_parameters = c.public_parameters ∧
      c2.return_values = c.return_values := by
  obtain ⟨m, _, _, h1, h2, h3⟩ := range_optimize_inversion hopt
  exact ⟨h1, h2, h3⟩

theorem C9_witness :
    exCircuitOpt.current_witness_index = exCircuit.current_witness_index ∧
      exCircuitOpt.public_parameters = exCircuit.public_parameters ∧
      exCircuitOpt.return_values = exCircuit.return_values :=
  C9_circuit_fields_preserved ex_opt

/-- C10: `extract_range_opcode` classifies an opcode as a non-range opcode
exactly when it is not a `RANGE`-named black-box call, and when it does
return a pair, that pair is the witness and bit width of the call's first
input descriptor (further descriptors are ignored). -/
theorem C10_extract_range_classification (op : Opcode F) :
    (extract_range_opcode op = Except.ok none ↔
      ∀ fc : Acvm.BlackBoxFuncCall, op = Opcode.BlackBoxFuncCall fc →
        fc.name ≠ BlackBoxFunc.RANGE) ∧
    (∀ w nb, extract_range_opcode op = Except.ok (some (w, nb)) ↔
      ∃ fc i rest, op = Opcode.BlackBoxFuncCall fc ∧
        fc.name = BlackBoxFunc.RANGE ∧ fc.inputs = i :: rest ∧
        w = i.witness ∧ nb = i.num_bits) := by
  cases op with
  | BlackBoxFuncCall fc =>
    by_cases hn : fc.name = BlackBoxFunc.RANGE
    · cases hi : fc.inputs with
      | nil =>
        constructor
        · constructor
          · intro h
            simp [extract_range_opcode, hn, hi] at h
          · intro h
            exact absurd hn (h fc rfl)
        · intro w nb
          constructor
          · intro h
            simp [extract_range_opcode, hn, hi] at h
          · rintro ⟨fc2, i, rest, heq, -, hinp, -, -⟩
            have h2 : fc2 = fc := (Opcode.BlackBoxFuncCall.inj heq).symm
            subst h2
            rw [hi] at hinp
            cases hinp
      | cons i rest =>
        constructor
        · constructor
          · intro h
            simp [extract_range_opcode, hn, hi] at h
          · intro h
            exact absurd hn (h fc rfl)
        · intro w nb
          have hval : extract_range_opcode (Opcode.BlackBoxFuncCall fc : Opcode F) =
              Except.ok (some (i.witness, i.num_bits)) := by
            simp [extract_range_opcode, hn, hi]
          constructor
          · intro h
            rw [hval] at h
            have h2 := Option.some.inj (Except.ok.inj h)
            have h3 := (Prod.mk.injEq _ _ _ _).mp h2
            exact ⟨fc, i, rest, rfl, hn, hi, h3.1.symm, h3.2.symm⟩
          · rintro ⟨fc2, i2, rest2, heq, -, hinp, hw, hnb⟩
            have h2 : fc2 = fc := (Opcode.BlackBoxFuncCall.inj heq).symm
            subst h2
            rw [hi] at hinp
            have h3 := (List.cons.injEq _ _ _ _).mp hinp
            subst hw
            subst hnb
            rw [← h3.1]
            exact hval
    · constructor
      · constructor
        · intro _ fc2 heq
          have h2 : fc2 = fc := (Opcode.BlackBoxFuncCall.inj heq).symm
          subst h2
          exact hn
        · intro _
          simp [extract_range_opcode, hn]
      · intro w nb
        constructor
        · intro h
          simp [extract_range_opcode, hn] at h
        · rintro ⟨fc2, i, rest, heq, hname, -, -, -⟩
          have h2 : fc2 = fc := (Opcode.BlackBoxFuncCall.inj heq).symm
          subst h2
          exact absurd hname hn
  | Arithmetic e =>
    refine ⟨⟨fun _ fc h => Opcode.noConfusion h, fun _ => rfl⟩, ?_⟩
    intro w nb
    constructor
    · intro h
      simp [extract_range_opcode] at h
    · rintro ⟨fc, i, rest, heq, -⟩
      cases heq
  | Directive d =>
    refine ⟨⟨fun _ fc h => Opcode.noConfusion h, fun _ => rfl⟩, ?_⟩
    intro w nb
    constructor
    · intro h
      simp [extract_range_opcode] at h
    · rintro ⟨fc, i, rest, heq, -⟩
      cases heq
  | Oracle data =>
    refine ⟨⟨fun _ fc h => Opcode.noConfusion h, fun _ => rfl⟩, ?_⟩
    intro w nb
    constructor
    · intro h
      simp [extract_range_opcode] at h
    · rintro ⟨fc, i, rest, heq, -⟩
      cases heq
  | Block id =>
    refine ⟨⟨fun _ fc h => Opcode.noConfusion h, fun _ => rfl⟩, ?_⟩
    intro w nb
    constructor
    · intro h
      simp [extract_range_opcode] at h
    · rintro ⟨fc, i, rest, heq, -⟩
      cases heq


/-! ## The partial witness solver

The `pwg` module is not among the available sources (only its trait
declarations, error enums and an integration test in `src/acvm/src/lib.rs`
are), so the solver below is modelled from the specification's solver
section: a multi-pass fixpoint sweep over the opcode list, with per-opcode
resolution (arithmetic solving, directives, oracles, black-box dispatch) and
a monotonic witness map. -/

/-- Embeds `OpcodeNotSolvable` from `src/acvm/src/lib.rs`. -/
inductive OpcodeNotSolvable (F : Type) where
  | MissingAssignment (idx : Nat)
  | ExpressionHasTooManyUnknowns (e : Expression F)
deriving DecidableEq

/-- Embeds `OpcodeResolutionError` from `src/acvm/src/lib.rs`. -/
inductive OpcodeResolutionError (F : Type) where
  | OpcodeNotSolvable (n : Acvm.OpcodeNotSolvable F)
  | UnsupportedBlackBoxFunc (f : BlackBoxFunc)
  | UnsatisfiedConstrain
  | UnexpectedOpcode (expected : String) (got : BlackBoxFunc)
  | IncorrectNumFunctionArguments (expected : Nat) (f : BlackBoxFunc) (got : Nat)
  | BlackBoxFunctionFailed (f : BlackBoxFunc) (reason : String)
deriving DecidableEq

/-- Modelled from the spec: the partial witness map, a partial mapping from
variables to field elements. -/
def WMap (F : Type) := Witness → Option F

/-- Modelled from the spec: the two terminal outcomes of one solving call
(the name is that of `pwg::PartialWitnessGeneratorStatus`, used by the test
in `src/acvm/src/lib.rs`). -/
inductive PartialWitnessGeneratorStatus (F : Type) where
  | Solved
  | RequiresOracleData (required_oracle_data : List (OracleData F))
      (unsolved_opcodes : List (Opcode F))
deriving DecidableEq

/-- Modelled from the spec: the per-opcode outcome of one resolution attempt
(`Resolved`, `Stalled`, or `ExtractedAsOracleRequest`; fatal outcomes are
errors). -/
inductive OpcodeAction (F : Type) where
  | resolved
  | stalled
  | extracted (data : OracleData F)
deriving DecidableEq

/-- Modelled from the spec: the backend capability object — for a black-box
call whose inputs are all known, it produces the list of output values (one
per output variable) or fails. -/
def Backend (F : Type) :=
  BlackBoxFunc → List FunctionInput → List Witness → WMap F →
    Except (OpcodeResolutionError F) (List F)

variable [Field F] [DecidableEq F]

set_option linter.unusedSectionVars false

/-- Modelled from the spec (and the `insert_value` helper of the solver):
assign a value to a variable monotonically — inserting a fresh binding,
accepting an equal rebinding, and failing with `UnsatisfiedConstrain` on a
conflicting one.  A bound variable is never overwritten. -/
def insert_value (w : Witness) (v : F) (ws : WMap F) :
    Except (OpcodeResolutionError F) (WMap F) :=
  match ws w with
  | none => .ok (fun x => if x = w then some v else ws x)
  | some old => if old = v then .ok ws else .error .UnsatisfiedConstrain

/-- Assign a list of (variable, value) pairs left to right. -/
def insert_values (ws : WMap F) :
    List (Witness × F) → Except (OpcodeResolutionError F) (WMap F)
  | [] => .ok ws
  | (w, v) :: rest =>
    match insert_value w v ws with
    | .error e => .error e
    | .ok ws2 => insert_values ws2 rest

/-- Evaluate the quadratic terms of an expression under a partial map; terms
with a zero coefficient contribute zero without needing their variables. -/
def evalMul? (ws : WMap F) : List (F × Witness × Witness) → Option F
  | [] => some 0
  | (c, x, y) :: rest =>
    match evalMul? ws rest with
    | none => none
    | some r =>
      if c = 0 then some r
      else
        match ws x, ws y with
        | some vx, some vy => some (c * vx * vy + r)
        | _, _ => none

/-- Evaluate the linear terms of an expression under a partial map. -/
def evalLin? (ws : WMap F) : List (F × Witness) → Option F
  | [] => some 0
  | (c, x) :: rest =>
    match evalLin? ws rest with
    | none => none
    | some r =>
      if c = 0 then some r
      else
        match ws x with
        | some vx => some (c * vx + r)
        | none => none

/-- Evaluate a whole expression under a partial map (`none` when a variable
of a nonzero-coefficient term is unassigned). -/
def evalExpr? (ws : WMap F) (e : Expression F) : Option F :=
  match evalMul? ws e.mul_terms, evalLin? ws e.linear_combinations with
  | some m, some l => some (m + l + e.q_c)
  | _, _ => none

/-- Evaluate a list of oracle input expressions. -/
def evalInputs? (ws : WMap F) : List (Expression F) → Option (List F)
  | [] => some []
  | e :: rest =>
    match evalExpr? ws e, evalInputs? ws rest with
    | some v, some vs => some (v :: vs)
    | _, _ => none

/-- Partially evaluate the quadratic terms: the known part is accumulated
into a constant, and each term with exactly one unknown variable leaves a
linear residue; `none` when a term with two unknown variables remains. -/
def normMul (ws : WMap F) :
    List (F × Witness × Witness) → Option (F × List (F × Witness))
  | [] => some (0, [])
  | (c, x, y) :: rest =>
    match normMul ws rest with
    | none => none
    | some (k, rs) =>
      if c = 0 then some (k, rs)
      else
        match ws x, ws y with
        | some vx, some vy => some (c * vx * vy + k, rs)
        | some vx, none => some (k, (c * vx, y) :: rs)
        | none, some vy => some (k, (c * vy, x) :: rs)
        | none, none => none

/-- Partially evaluate the linear terms into a known constant plus residues
on the unknown variables. -/
def normLin (ws : WMap F) : List (F × Witness) → F × List (F × Witness)
  | [] => (0, [])
  | (c, x) :: rest =>
    let p := normLin ws rest
    if c = 0 then p
    else
      match ws x with
      | some vx => (c * vx + p.1, p.2)
      | none => (p.1, (c, x) :: p.2)

/-- Partially evaluate an expression: known constant plus linear residues on
the unknown variables (`none` when a quadratic term keeps two unknowns). -/
def normArith (ws : WMap F) (e : Expression F) :
    Option (F × List (F × Witness)) :=
  match normMul ws e.mul_terms with
  | none => none
  | some (k, rs) =>
    some (k + (normLin ws e.linear_combinations).1 + e.q_c,
      rs ++ (normLin ws e.linear_combinations).2)

/-- Modelled from the spec: resolve one arithmetic opcode — verify when fully
assigned, solve the linear equation when exactly one unknown remains, stall
otherwise. -/
def solveArith (ws : WMap F) (e : Expression F) :
    Except (OpcodeResolutionError F) (WMap F × OpcodeAction F) :=
  match normArith ws e with
  | none => .ok (ws, .stalled)
  | some (k, []) =>
    if k = 0 then .ok (ws, .resolved) else .error .UnsatisfiedConstrain
  | some (k, [(a, x)]) =>
    if a = 0 then .ok (ws, .stalled)
    else
      match insert_value x (-k / a) ws with
      | .error e2 => .error e2
      | .ok ws2 => .ok (ws2, .resolved)
  | some (_, _ :: _ :: _) => .ok (ws, .stalled)


/-- Modelled from the spec: one resolution attempt on one opcode.
Arithmetic opcodes are verified/solved/stalled; an `Invert` directive
computes the field inverse (inverse of zero is zero) once its input is
known; an oracle with known inputs is extracted as a request while its
`output_values` are empty and resolved by assigning its outputs once they
are supplied; a black-box call with known inputs is dispatched to the
backend, whose output values are assigned to the call's outputs; a memory
`Block` is treated as opaque and never resolved here (its internal semantics
are flagged as unobservable by the spec). -/
def sweepOne (b : Backend F) (ws : WMap F) :
    Opcode F → Except (OpcodeResolutionError F) (WMap F × OpcodeAction F)
  | .Arithmetic e => solveArith ws e
  | .Directive (.Invert x result) =>
    match ws x with
    | none => .ok (ws, .stalled)
    | some vx =>
      match insert_value result vx⁻¹ ws with
      | .error e2 => .error e2
      | .ok ws2 => .ok (ws2, .resolved)
  | .Oracle od =>
    match evalInputs? ws od.inputs with
    | none => .ok (ws, .stalled)
    | some vals =>
      if od.output_values = [] then
        .ok (ws, .extracted { od with input_values := vals })
      else
        match insert_values ws (od.outputs.zip od.output_values) with
        | .error e2 => .error e2
        | .ok ws2 => .ok (ws2, .resolved)
  | .BlackBoxFuncCall fc =>
    if fc.inputs.all (fun i => (ws i.witness).isSome) then
      match b fc.name fc.inputs fc.outputs ws with
      | .error e2 => .error e2
      | .ok outs =>
        match insert_values ws (fc.outputs.zip outs) with
        | .error e2 => .error e2
        | .ok ws2 => .ok (ws2, .resolved)
    else
      .ok (ws, .stalled)
  | .Block _ => .ok (ws, .stalled)

/-- Modelled from the spec: one sweep over the unresolved opcode list,
threading the witness map left to right and collecting the still-stalled
opcodes (in order) and the newly extracted oracle requests. -/
def sweep (b : Backend F) (ws : WMap F) :
    List (Opcode F) →
      Except (OpcodeResolutionError F)
        (WMap F × List (Opcode F) × List (OracleData F))
  | [] => .ok (ws, [], [])
  | op :: rest =>
    match sweepOne b ws op with
    | .error e => .error e
    | .ok (ws1, act) =>
      match sweep b ws1 rest with
      | .error e => .error e
      | .ok (ws2, st, ex) =>
        match act with
        | .resolved => .ok (ws2, st, ex)
        | .stalled => .ok (ws2, op :: st, ex)
        | .extracted od => .ok (ws2, st, od :: ex)

/-- Modelled from the spec: the multi-pass fixpoint loop.  A sweep that
shortens the unresolved list (resolved or extracted at least one opcode)
counts as progress; on a sweep without progress the loop stops — `Solved`
when nothing is left and no oracle request is pending, `RequiresOracleData`
when requests were extracted during this call, and a fatal not-solvable
error when opcodes stall with no oracle round-trip to explain it.  The fuel
argument dominates the number of productive sweeps; `solve` supplies
`opcodes.length + 1`, which is proven sufficient below. -/
def solveLoop (b : Backend F) :
    Nat → WMap F → List (OracleData F) → List (Opcode F) →
      Except (OpcodeResolutionError F)
        (PartialWitnessGeneratorStatus F × WMap F)
  | 0, _, _, _ => .error (.OpcodeNotSolvable (.MissingAssignment 0))
  | fuel + 1, ws, reqs, ops =>
    match sweep b ws ops with
    | .error e => .error e
    | .ok (ws2, stalled2, newReqs) =>
      if stalled2.length < ops.length then
        solveLoop b fuel ws2 (reqs ++ newReqs) stalled2
      else
        match reqs ++ newReqs with
        | [] =>
          if stalled2.isEmpty then .ok (.Solved, ws2)
          else .error (.OpcodeNotSolvable (.MissingAssignment 0))
        | r :: rs => .ok (.RequiresOracleData (r :: rs) stalled2, ws2)

/-- Modelled from the spec: one solving call over an opcode list. -/
def solve (b : Backend F) (ws : WMap F) (ops : List (Opcode F)) :
    Except (OpcodeResolutionError F)
      (PartialWitnessGeneratorStatus F × WMap F) :=
  solveLoop b (ops.length + 1) ws [] ops

/-! ### Monotonicity of the witness map -/

/-- `ws2` preserves every binding of `ws`. -/
def Extends (ws ws2 : WMap F) : Prop :=
  ∀ w v, ws w = some v → ws2 w = some v

theorem extends_refl (ws : WMap F) : Extends ws ws := fun _ _ h => h

theorem extends_of_eq {ws ws2 : WMap F} (h : ws = ws2) : Extends ws ws2 :=
  fun _ _ hv => h ▸ hv

theorem extends_trans {a b c : WMap F} (h1 : Extends a b) (h2 : Extends b c) :
    Extends a c :=
  fun w v h => h2 w v (h1 w v h)

theorem insert_value_extends {w : Witness} {v : F} {ws ws2 : WMap F}
    (h : insert_value w v ws = Except.ok ws2) : Extends ws ws2 := by
  cases hw : ws w with
  | none =>
    simp only [insert_value, hw] at h
    refine extends_trans ?_ (extends_of_eq (Except.ok.inj h))
    intro w2 v2 h2
    by_cases hww : w2 = w
    · subst hww
      rw [hw] at h2
      cases h2
    · simp only [if_neg hww]
      exact h2
  | some old =>
    simp only [insert_value, hw] at h
    by_cases hov : old = v
    · rw [if_pos hov] at h
      exact extends_of_eq (Except.ok.inj h)
    · rw [if_neg hov] at h
      cases h

theorem insert_value_sets {w : Witness} {v : F} {ws ws2 : WMap F}
    (h : insert_value w v ws = Except.ok ws2) : ws2 w = some v := by
  cases hw : ws w with
  | none =>
    simp only [insert_value, hw] at h
    rw [← Except.ok.inj h]
    simp
  | some old =>
    simp only [insert_value, hw] at h
    by_cases hov : old = v
    · rw [if_pos hov] at h
      rw [← Except.ok.inj h, hw, hov]
    · rw [if_neg hov] at h
      cases h

theorem insert_values_extends :
    ∀ (l : List (Witness × F)) {ws ws2 : WMap F},
      insert_values ws l = Except.ok ws2 → Extends ws ws2 := by
  intro l
  induction l with
  | nil =>
    intro ws ws2 h
    exact extends_of_eq (Except.ok.inj h)
  | cons p rest ih =>
    intro ws ws2 h
    obtain ⟨w, v⟩ := p
    cases hins : insert_value w v ws with
    | error e =>
      simp only [insert_values, hins] at h
      cases h
    | ok ws1 =>
      simp only [insert_values, hins] at h
      exact extends_trans (insert_value_extends hins) (ih h)

theorem solveArith_extends {ws ws2 : WMap F} {e : Expression F}
    {act : OpcodeAction F} (h : solveArith ws e = Except.ok (ws2, act)) :
    Extends ws ws2 := by
  cases hn : normArith ws e with
  | none =>
    simp only [solveArith, hn] at h
    exact extends_of_eq (Prod.mk.inj (Except.ok.inj h)).1
  | some p =>
    obtain ⟨k, rs⟩ := p
    cases rs with
    | nil =>
      simp only [solveArith, hn] at h
      by_cases hk : k = 0
      · rw [if_pos hk] at h
        exact extends_of_eq (Prod.mk.inj (Except.ok.inj h)).1
      · rw [if_neg hk] at h
        cases h
    | cons hd tl =>
      obtain ⟨a, x⟩ := hd
      cases tl with
      | nil =>
        simp only [solveArith, hn] at h
        by_cases ha : a = 0
        · rw [if_pos ha] at h
          exact extends_of_eq (Prod.mk.inj (Except.ok.inj h)).1
        · rw [if_neg ha] at h
          cases hins : insert_value x (-k / a) ws with
          | error e2 =>
            simp only [hins] at h
            cases h
          | ok ws1 =>
            simp only [hins] at h
            exact extends_trans (insert_value_extends hins)
              (extends_of_eq (Prod.mk.inj (Except.ok.inj h)).1)
      | cons hd2 tl2 =>
        simp only [solveArith, hn] at h
        exact extends_of_eq (Prod.mk.inj (Except.ok.inj h)).1

theorem sweepOne_extends {b : Backend F} {ws ws2 : WMap F} {op : Opcode F}
    {act : OpcodeAction F} (h : sweepOne b ws op = Except.ok (ws2, act)) :
    Extends ws ws2 := by
  cases op with
  | Arithmetic e => exact solveArith_extends h
  | Directive d =>
    cases d with
    | Invert x result =>
      cases hx : ws x with
      | none =>
        simp only [sweepOne, hx] at h
        exact extends_of_eq (Prod.mk.inj (Except.ok.inj h)).1
      | some vx =>
        simp only [sweepOne, hx] at h
        cases hins : insert_value result vx⁻¹ ws with
        | error e2 =>
          simp only [hins] at h
          cases h
        | ok ws1 =>
          simp only [hins] at h
          exact extends_trans (insert_value_extends hins)
            (extends_of_eq (Prod.mk.inj (Except.ok.inj h)).1)
  | Oracle od =>
    cases hin : evalInputs? ws od.inputs with
    | none =>
      simp only [sweepOne, hin] at h
      exact extends_of_eq (Prod.mk.inj (Except.ok.inj h)).1
    | some vals =>
      simp only [sweepOne, hin] at h
      by_cases hov : od.output_values = []
      · rw [if_pos hov] at h
        exact extends_of_eq (Prod.mk.inj (Except.ok.inj h)).1
      · rw [if_neg hov] at h
        cases hins : insert_values ws (od.outputs.zip od.output_values) with
        | error e2 =>
          simp only [hins] at h
          cases h
        | ok ws1 =>
          simp only [hins] at h
          exact extends_trans (insert_values_extends _ hins)
            (extends_of_eq (Prod.mk.inj (Except.ok.inj h)).1)
  | BlackBoxFuncCall fc =>
    by_cases hall : fc.inputs.all (fun i => (ws i.witness).isSome) = true
    · simp only [sweepOne, hall, if_true] at h
      cases hb : b fc.name fc.inputs fc.outputs ws with
      | error e2 =>
        simp only [hb] at h
        cases h
      | ok outs =>
        simp only [hb] at h
        cases hins : insert_values ws (fc.outputs.zip outs) with
        | error e2 =>
          simp only [hins] at h
          cases h
        | ok ws1 =>
          simp only [hins] at h
          exact extends_trans (insert_values_extends _ hins)
            (extends_of_eq (Prod.mk.inj (Except.ok.inj h)).1)
    · simp only [sweepOne, hall, if_false] at h
      exact extends_of_eq (Prod.mk.inj (Except.ok.inj h)).1
  | Block id =>
    exact extends_of_eq (Prod.mk.inj (Except.ok.inj h)).1

theorem sweep_extends :
    ∀ (l : List (Opcode F)) {b : Backend F} {ws ws2 : WMap F}
      {st : List (Opcode F)} {ex : List (OracleData F)},
      sweep b ws l = Except.ok (ws2, st, ex) → Extends ws ws2 := by
  intro l
  induction l with
  | nil =>
    intro b ws ws2 st ex h
    exact extends_of_eq (Prod.mk.inj (Except.ok.inj h)).1
  | cons op rest ih =>
    intro b ws ws2 st ex h
    cases h1 : sweepOne b ws op with
    | error e =>
      simp only [sweep, h1] at h
      cases h
    | ok p =>
      obtain ⟨ws1, act⟩ := p
      simp only [sweep, h1] at h
      cases h2 : sweep b ws1 rest with
      | error e =>
        simp only [h2] at h
        cases h
      | ok q =>
        obtain ⟨ws3, st3, ex3⟩ := q
        simp only [h2] at h
        have hx := extends_trans (sweepOne_extends h1) (ih h2)
        cases act with
        | resolved => exact extends_trans hx (extends_of_eq (Prod.mk.inj (Except.ok.inj h)).1)
        | stalled => exact extends_trans hx (extends_of_eq (Prod.mk.inj (Except.ok.inj h)).1)
        | extracted od => exact extends_trans hx (extends_of_eq (Prod.mk.inj (Except.ok.inj h)).1)

theorem solveLoop_extends :
    ∀ (fuel : Nat) {b : Backend F} {ws : WMap F} {reqs : List (OracleData F)}
      {ops : List (Opcode F)} {r},
      solveLoop b fuel ws reqs ops = Except.ok r → Extends ws r.2 := by
  intro fuel
  induction fuel with
  | zero => intro b ws reqs ops r h; cases h
  | succ n ih =>
    intro b ws reqs ops r h
    cases hs : sweep b ws ops with
    | error e =>
      simp only [solveLoop, hs] at h
      cases h
    | ok p =>
      obtain ⟨ws2, st, ex⟩ := p
      simp only [solveLoop, hs] at h
      have hx := sweep_extends ops hs
      by_cases hlt : st.length < ops.length
      · rw [if_pos hlt] at h
        exact extends_trans hx (ih h)
      · rw [if_neg hlt] at h
        cases hre : reqs ++ ex with
        | nil =>
          rw [hre] at h
          by_cases hemp : st.isEmpty = true
          · rw [if_pos hemp] at h
            refine extends_trans hx (extends_of_eq ?_)
            exact congrArg Prod.snd (Except.ok.inj h)
          · rw [if_neg hemp] at h
            cases h
        | cons r2 rs =>
          simp only [hre] at h
          refine extends_trans hx (extends_of_eq ?_)
          exact congrArg Prod.snd (Except.ok.inj h)

theorem solve_extends {b : Backend F} {ws : WMap F} {ops : List (Opcode F)} {r}
    (h : solve b ws ops = Except.ok r) : Extends ws r.2 :=
  solveLoop_extends _ h


/-! ### Evaluation under a growing witness map -/

theorem evalMul?_mono {ws ws2 : WMap F} (hx : Extends ws ws2) :
    ∀ (l : List (F × Witness × Witness)) {v : F},
      evalMul? ws l = some v → evalMul? ws2 l = some v := by
  intro l
  induction l with
  | nil =>
    intro v h
    exact h
  | cons t rest ih =>
    intro v h
    obtain ⟨c, x, y⟩ := t
    cases hr : evalMul? ws rest with
    | none =>
      simp only [evalMul?, hr] at h
      cases h
    | some r =>
      simp only [evalMul?, hr] at h
      simp only [evalMul?, ih hr]
      by_cases hc : c = 0
      · rw [if_pos hc] at h ⊢
        exact h
      · rw [if_neg hc] at h ⊢
        cases hvx : ws x with
        | none => rw [hvx] at h; cases h
        | some vx =>
          rw [hvx] at h
          cases hvy : ws y with
          | none => rw [hvy] at h; cases h
          | some vy =>
            rw [hvy] at h
            rw [hx x vx hvx, hx y vy hvy]
            exact h

theorem evalLin?_mono {ws ws2 : WMap F} (hx : Extends ws ws2) :
    ∀ (l : List (F × Witness)) {v : F},
      evalLin? ws l = some v → evalLin? ws2 l = some v := by
  intro l
  induction l with
  | nil =>
    intro v h
    exact h
  | cons t rest ih =>
    intro v h
    obtain ⟨c, x⟩ := t
    cases hr : evalLin? ws rest with
    | none =>
      simp only [evalLin?, hr] at h
      cases h
    | some r =>
      simp only [evalLin?, hr] at h
      simp only [evalLin?, ih hr]
      by_cases hc : c = 0
      · rw [if_pos hc] at h ⊢
        exact h
      · rw [if_neg hc] at h ⊢
        cases hvx : ws x with
        | none => rw [hvx] at h; cases h
        | some vx =>
          rw [hvx] at h
          rw [hx x vx hvx]
          exact h

theorem evalExpr?_mono {ws ws2 : WMap F} (hx : Extends ws ws2)
    {e : Expression F} {v : F} (h : evalExpr? ws e = some v) :
    evalExpr? ws2 e = some v := by
  cases hm : evalMul? ws e.mul_terms with
  | none =>
    simp only [evalExpr?, hm] at h
    cases h
  | some m =>
    cases hl : evalLin? ws e.linear_combinations with
    | none =>
      simp only [evalExpr?, hm, hl] at h
      cases h
    | some l =>
      simp only [evalExpr?, hm, hl] at h
      simp only [evalExpr?, evalMul?_mono hx _ hm, evalLin?_mono hx _ hl]
      exact h

theorem evalInputs?_mono {ws ws2 : WMap F} (hx : Extends ws ws2) :
    ∀ (l : List (Expression F)) {vs : List F},
      evalInputs? ws l = some vs → evalInputs? ws2 l = some vs := by
  intro l
  induction l with
  | nil =>
    intro vs h
    exact h
  | cons e rest ih =>
    intro vs h
    cases he : evalExpr? ws e with
    | none =>
      simp only [evalInputs?, he] at h
      cases h
    | some v =>
      cases hr : evalInputs? ws rest with
      | none =>
        simp only [evalInputs?, he, hr] at h
        cases h
      | some rest2 =>
        simp only [evalInputs?, he, hr] at h
        simp only [evalInputs?, evalExpr?_mono hx he, ih hr]
        exact h

/-! ### The partial-evaluation view agrees with full evaluation -/

theorem normMul_of_eval :
    ∀ (l : List (F × Witness × Witness)) {ws : WMap F} {v : F},
      evalMul? ws l = some v → normMul ws l = some (v, []) := by
  intro l
  induction l with
  | nil =>
    intro ws v h
    rw [normMul, ← Option.some.inj h]
  | cons t rest ih =>
    intro ws v h
    obtain ⟨c, x, y⟩ := t
    cases hr : evalMul? ws rest with
    | none =>
      simp only [evalMul?, hr] at h
      cases h
    | some r =>
      simp only [evalMul?, hr] at h
      simp only [normMul, ih hr]
      by_cases hc : c = 0
      · rw [if_pos hc] at h ⊢
        rw [Option.some.inj h]
      · rw [if_neg hc] at h ⊢
        cases hvx : ws x with
        | none => rw [hvx] at h; cases h
        | some vx =>
          rw [hvx] at h
          cases hvy : ws y with
          | none => rw [hvy] at h; cases h
          | some vy =>
            rw [hvy] at h
            exact congrArg (fun z => some (z, ([] : List (F × Witness))))
              (Option.some.inj h)

theorem normLin_of_eval :
    ∀ (l : List (F × Witness)) {ws : WMap F} {v : F},
      evalLin? ws l = some v → normLin ws l = (v, []) := by
  intro l
  induction l with
  | nil =>
    intro ws v h
    rw [normLin, ← Option.some.inj h]
  | cons t rest ih =>
    intro ws v h
    obtain ⟨c, x⟩ := t
    cases hr : evalLin? ws rest with
    | none =>
      simp only [evalLin?, hr] at h
      cases h
    | some r =>
      simp only [evalLin?, hr] at h
      simp only [normLin, ih hr]
      by_cases hc : c = 0
      · rw [if_pos hc] at h ⊢
        rw [← Option.some.inj h]
      · rw [if_neg hc] at h ⊢
        cases hvx : ws x with
        | none => rw [hvx] at h; cases h
        | some vx =>
          rw [hvx] at h
          exact congrArg (fun z => ((z, ([] : List (F × Witness))) : F × List (F × Witness)))
            (Option.some.inj h)

theorem normArith_of_eval {ws : WMap F} {e : Expression F} {v : F}
    (h : evalExpr? ws e = some v) : normArith ws e = some (v, []) := by
  cases hm : evalMul? ws e.mul_terms with
  | none =>
    simp only [evalExpr?, hm] at h
    cases h
  | some m =>
    cases hl : evalLin? ws e.linear_combinations with
    | none =>
      simp only [evalExpr?, hm, hl] at h
      cases h
    | some l =>
      simp only [evalExpr?, hm, hl] at h
      simp only [normArith, normMul_of_eval _ hm, normLin_of_eval _ hl,
        List.nil_append]
      rw [Option.some.inj h]


/-- The value of a list of linear residues under a (later) witness map. -/
def sumRes (ws : WMap F) : List (F × Witness) → Option F
  | [] => some 0
  | (c, x) :: rest =>
    match ws x, sumRes ws rest with
    | some vx, some r => some (c * vx + r)
    | _, _ => none

theorem sumRes_append :
    ∀ (l1 l2 : List (F × Witness)) {ws : WMap F} {a b : F},
      sumRes ws l1 = some a → sumRes ws l2 = some b →
      sumRes ws (l1 ++ l2) = some (a + b) := by
  intro l1
  induction l1 with
  | nil =>
    intro l2 ws a b h1 h2
    have ha := Option.some.inj h1
    rw [List.nil_append, h2, ← ha]
    exact congrArg some (by ring)
  | cons t rest ih =>
    intro l2 ws a b h1 h2
    obtain ⟨c, x⟩ := t
    cases hvx : ws x with
    | none => simp only [sumRes, hvx] at h1; cases h1
    | some vx =>
      cases hr : sumRes ws rest with
      | none => simp only [sumRes, hvx, hr] at h1; cases h1
      | some r =>
        simp only [sumRes, hvx, hr] at h1
        rw [List.cons_append]
        simp only [sumRes, hvx, ih l2 hr h2]
        rw [← Option.some.inj h1]
        exact congrArg some (by ring)

theorem evalMul?_of_normMul :
    ∀ (l : List (F × Witness × Witness)) {ws ws2 : WMap F} {k s : F}
      {rs : List (F × Witness)},
      normMul ws l = some (k, rs) → Extends ws ws2 → sumRes ws2 rs = some s →
      evalMul? ws2 l = some (k + s) := by
  intro l
  induction l with
  | nil =>
    intro ws ws2 k s rs hn hx hs
    obtain ⟨hk, hrs⟩ := Prod.mk.inj (Option.some.inj hn)
    rw [← hrs] at hs
    have hs0 := Option.some.inj hs
    rw [evalMul?, ← hk, ← hs0]
    exact congrArg some (by ring)
  | cons t rest ih =>
    intro ws ws2 k s rs hn hx hs
    obtain ⟨c, x, y⟩ := t
    cases hrec : normMul ws rest with
    | none =>
      simp only [normMul, hrec] at hn
      cases hn
    | some p =>
      obtain ⟨k2, rs2⟩ := p
      simp only [normMul, hrec] at hn
      by_cases hc : c = 0
      · rw [if_pos hc] at hn
        obtain ⟨hk, hrs⟩ := Prod.mk.inj (Option.some.inj hn)
        rw [← hrs] at hs
        simp only [evalMul?, ih hrec hx hs]
        rw [if_pos hc, hk]
      · rw [if_neg hc] at hn
        cases hvx : ws x with
        | none =>
          rw [hvx] at hn
          cases hvy : ws y with
          | none => rw [hvy] at hn; cases hn
          | some vy =>
            rw [hvy] at hn
            obtain ⟨hk, hrs⟩ := Prod.mk.inj (Option.some.inj hn)
            rw [← hrs] at hs
            cases hvx2 : ws2 x with
            | none =>
              simp only [sumRes, hvx2] at hs
              cases hs
            | some vx2 =>
              cases hs2 : sumRes ws2 rs2 with
              | none =>
                simp only [sumRes, hvx2, hs2] at hs
                cases hs
              | some s2 =>
                simp only [sumRes, hvx2, hs2] at hs
                simp only [evalMul?, ih hrec hx hs2]
                rw [if_neg hc]
                simp only [hvx2, hx y vy hvy]
                rw [← Option.some.inj hs, ← hk]
                exact congrArg some (by ring)
        | some vx =>
          rw [hvx] at hn
          cases hvy : ws y with
          | none =>
            rw [hvy] at hn
            obtain ⟨hk, hrs⟩ := Prod.mk.inj (Option.some.inj hn)
            rw [← hrs] at hs
            cases hvy2 : ws2 y with
            | none =>
              simp only [sumRes, hvy2] at hs
              cases hs
            | some vy2 =>
              cases hs2 : sumRes ws2 rs2 with
              | none =>
                simp only [sumRes, hvy2, hs2] at hs
                cases hs
              | some s2 =>
                simp only [sumRes, hvy2, hs2] at hs
                simp only [evalMul?, ih hrec hx hs2]
                rw [if_neg hc]
                simp only [hvy2, hx x vx hvx]
                rw [← Option.some.inj hs, ← hk]
                exact congrArg some (by ring)
          | some vy =>
            rw [hvy] at hn
            obtain ⟨hk, hrs⟩ := Prod.mk.inj (Option.some.inj hn)
            rw [← hrs] at hs
            simp only [evalMul?, ih hrec hx hs]
            rw [if_neg hc]
            simp only [hx x vx hvx, hx y vy hvy]
            rw [← hk]
            exact congrArg some (by ring)

theorem evalLin?_of_normLin :
    ∀ (l : List (F × Witness)) {ws ws2 : WMap F} {s : F},
      Extends ws ws2 → sumRes ws2 (normLin ws l).2 = some s →
      evalLin? ws2 l = some ((normLin ws l).1 + s) := by
  intro l
  induction l with
  | nil =>
    intro ws ws2 s hx hs
    have hs0 := Option.some.inj hs
    rw [evalLin?, normLin, ← hs0]
    exact congrArg some (by ring)
  | cons t rest ih =>
    intro ws ws2 s hx hs
    obtain ⟨c, x⟩ := t
    by_cases hc : c = 0
    · simp only [normLin, if_pos hc] at hs ⊢
      simp only [evalLin?, ih hx hs]
      rw [if_pos hc]
    · cases hvx : ws x with
      | none =>
        simp only [normLin, if_neg hc, hvx] at hs ⊢
        cases hvx2 : ws2 x with
        | none =>
          simp only [sumRes, hvx2] at hs
          cases hs
        | some vx2 =>
          cases hs2 : sumRes ws2 (normLin ws rest).2 with
          | none =>
            simp only [sumRes, hvx2, hs2] at hs
            cases hs
          | some s2 =>
            simp only [sumRes, hvx2, hs2] at hs
            simp only [evalLin?, ih hx hs2]
            rw [if_neg hc]
            simp only [hvx2]
            rw [← Option.some.inj hs]
            exact congrArg some (by ring)
      | some vx =>
        simp only [normLin, if_neg hc, hvx] at hs ⊢
        simp only [evalLin?, ih hx hs]
        rw [if_neg hc]
        simp only [hx x vx hvx]
        exact congrArg some (by ring)

theorem sumRes_append_inv :
    ∀ (l1 : List (F × Witness)) {l2 : List (F × Witness)} {ws : WMap F} {s : F},
      sumRes ws (l1 ++ l2) = some s →
      ∃ a b, sumRes ws l1 = some a ∧ sumRes ws l2 = some b ∧ s = a + b := by
  intro l1
  induction l1 with
  | nil =>
    intro l2 ws s h
    exact ⟨0, s, rfl, h, by ring⟩
  | cons t rest ih =>
    intro l2 ws s h
    obtain ⟨c, x⟩ := t
    rw [List.cons_append] at h
    cases hvx : ws x with
    | none =>
      simp only [sumRes, hvx] at h
      cases h
    | some vx =>
      cases hr : sumRes ws (rest ++ l2) with
      | none =>
        simp only [sumRes, hvx, hr] at h
        cases h
      | some r =>
        simp only [sumRes, hvx, hr] at h
        obtain ⟨a, b, ha, hb, hab⟩ := ih hr
        refine ⟨c * vx + a, b, ?_, hb, ?_⟩
        · simp only [sumRes, hvx, ha]
        · rw [← Option.some.inj h, hab]
          ring

theorem evalExpr?_of_normArith {ws ws2 : WMap F} {e : Expression F} {k s : F}
    {rs : List (F × Witness)}
    (hn : normArith ws e = some (k, rs)) (hx : Extends ws ws2)
    (hs : sumRes ws2 rs = some s) :
    evalExpr? ws2 e = some (k + s) := by
  cases hm : normMul ws e.mul_terms with
  | none =>
    simp only [normArith, hm] at hn
    cases hn
  | some p =>
    obtain ⟨km, rsm⟩ := p
    simp only [normArith, hm] at hn
    obtain ⟨hk, hrs⟩ := Prod.mk.inj (Option.some.inj hn)
    rw [← hrs] at hs
    obtain ⟨a, b, ha, hb, hab⟩ := sumRes_append_inv rsm hs
    simp only [evalExpr?, evalMul?_of_normMul e.mul_terms hm hx ha,
      evalLin?_of_normLin e.linear_combinations hx hb]
    rw [← hk, hab]
    exact congrArg some (by ring)


/-! ### Residue variables are unassigned -/

theorem normMul_fresh :
    ∀ (l : List (F × Witness × Witness)) {ws : WMap F} {k : F}
      {rs : List (F × Witness)},
      normMul ws l = some (k, rs) → ∀ p ∈ rs, ws p.2 = none := by
  intro l
  induction l with
  | nil =>
    intro ws k rs hn p hp
    obtain ⟨-, hrs⟩ := Prod.mk.inj (Option.some.inj hn)
    rw [← hrs] at hp
    cases hp
  | cons t rest ih =>
    intro ws k rs hn p hp
    obtain ⟨c, x, y⟩ := t
    cases hrec : normMul ws rest with
    | none =>
      simp only [normMul, hrec] at hn
      cases hn
    | some q =>
      obtain ⟨k2, rs2⟩ := q
      simp only [normMul, hrec] at hn
      by_cases hc : c = 0
      · rw [if_pos hc] at hn
        obtain ⟨-, hrs⟩ := Prod.mk.inj (Option.some.inj hn)
        rw [← hrs] at hp
        exact ih hrec p hp
      · rw [if_neg hc] at hn
        cases hvx : ws x with
        | none =>
          rw [hvx] at hn
          cases hvy : ws y with
          | none => rw [hvy] at hn; cases hn
          | some vy =>
            rw [hvy] at hn
            obtain ⟨-, hrs⟩ := Prod.mk.inj (Option.some.inj hn)
            rw [← hrs] at hp
            rcases List.mem_cons.mp hp with h2 | h2
            · rw [h2]
              exact hvx
            · exact ih hrec p h2
        | some vx =>
          rw [hvx] at hn
          cases hvy : ws y with
          | none =>
            rw [hvy] at hn
            obtain ⟨-, hrs⟩ := Prod.mk.inj (Option.some.inj hn)
            rw [← hrs] at hp
            rcases List.mem_cons.mp hp with h2 | h2
            · rw [h2]
              exact hvy
            · exact ih hrec p h2
          | some vy =>
            rw [hvy] at hn
            obtain ⟨-, hrs⟩ := Prod.mk.inj (Option.some.inj hn)
            rw [← hrs] at hp
            exact ih hrec p hp

theorem normLin_fresh :
    ∀ (l : List (F × Witness)) {ws : WMap F},
      ∀ p ∈ (normLin ws l).2, ws p.2 = none := by
  intro l
  induction l with
  | nil =>
    intro ws p hp
    cases hp
  | cons t rest ih =>
    intro ws p hp
    obtain ⟨c, x⟩ := t
    by_cases hc : c = 0
    · simp only [normLin, if_pos hc] at hp
      exact ih p hp
    · cases hvx : ws x with
      | none =>
        simp only [normLin, if_neg hc, hvx] at hp
        rcases List.mem_cons.mp hp with h2 | h2
        · rw [h2]
          exact hvx
        · exact ih p h2
      | some vx =>
        simp only [normLin, if_neg hc, hvx] at hp
        exact ih p hp

theorem normArith_fresh {ws : WMap F} {e : Expression F} {k : F}
    {rs : List (F × Witness)} (hn : normArith ws e = some (k, rs)) :
    ∀ p ∈ rs, ws p.2 = none := by
  intro p hp
  cases hm : normMul ws e.mul_terms with
  | none =>
    simp only [normArith, hm] at hn
    cases hn
  | some q =>
    obtain ⟨km, rsm⟩ := q
    simp only [normArith, hm] at hn
    obtain ⟨-, hrs⟩ := Prod.mk.inj (Option.some.inj hn)
    rw [← hrs] at hp
    rcases List.mem_append.mp hp with h2 | h2
    · exact normMul_fresh e.mul_terms hm p h2
    · exact normLin_fresh e.linear_combinations p h2

/-! ### Soundness of arithmetic resolution -/

theorem solveArith_cases {ws ws2 : WMap F} {e : Expression F}
    {act : OpcodeAction F} (h : solveArith ws e = Except.ok (ws2, act)) :
    (act = OpcodeAction.resolved ∧ evalExpr? ws2 e = some 0) ∨
      (act = OpcodeAction.stalled ∧ ws2 = ws) := by
  cases hn : normArith ws e with
  | none =>
    simp only [solveArith, hn] at h
    obtain ⟨h1, h2⟩ := Prod.mk.inj (Except.ok.inj h)
    exact Or.inr ⟨h2.symm, h1.symm⟩
  | some p =>
    obtain ⟨k, rs⟩ := p
    cases rs with
    | nil =>
      simp only [solveArith, hn] at h
      by_cases hk : k = 0
      · rw [if_pos hk] at h
        obtain ⟨h1, h2⟩ := Prod.mk.inj (Except.ok.inj h)
        refine Or.inl ⟨h2.symm, ?_⟩
        have hev := evalExpr?_of_normArith hn (extends_refl ws) (rfl : sumRes ws [] = some 0)
        rw [← h1, hev, hk]
        exact congrArg some (by ring)
      · rw [if_neg hk] at h
        cases h
    | cons hd tl =>
      obtain ⟨a, x⟩ := hd
      cases tl with
      | nil =>
        simp only [solveArith, hn] at h
        by_cases ha : a = 0
        · rw [if_pos ha] at h
          obtain ⟨h1, h2⟩ := Prod.mk.inj (Except.ok.inj h)
          exact Or.inr ⟨h2.symm, h1.symm⟩
        · rw [if_neg ha] at h
          cases hins : insert_value x (-k / a) ws with
          | error e2 =>
            simp only [hins] at h
            cases h
          | ok ws1 =>
            simp only [hins] at h
            obtain ⟨h1, h2⟩ := Prod.mk.inj (Except.ok.inj h)
            refine Or.inl ⟨h2.symm, ?_⟩
            have hxt : Extends ws ws1 := insert_value_extends hins
            have hset : ws1 x = some (-k / a) := insert_value_sets hins
            have hsum : sumRes ws1 [(a, x)] = some (a * (-k / a) + 0) := by
              simp only [sumRes, hset]
            have hev := evalExpr?_of_normArith hn hxt hsum
            rw [← h1, hev]
            refine congrArg some ?_
            field_simp
            ring
      | cons hd2 tl2 =>
        simp only [solveArith, hn] at h
        obtain ⟨h1, h2⟩ := Prod.mk.inj (Except.ok.inj h)
        exact Or.inr ⟨h2.symm, h1.symm⟩


/-! ### Sweep-level facts -/

theorem sweep_stalled_le :
    ∀ (l : List (Opcode F)) {b : Backend F} {ws ws2 : WMap F}
      {st : List (Opcode F)} {ex : List (OracleData F)},
      sweep b ws l = Except.ok (ws2, st, ex) → st.length ≤ l.length := by
  intro l
  induction l with
  | nil =>
    intro b ws ws2 st ex h
    obtain ⟨-, h2⟩ := Prod.mk.inj (Except.ok.inj h)
    obtain ⟨h3, -⟩ := Prod.mk.inj h2
    rw [← h3]
  | cons op rest ih =>
    intro b ws ws2 st ex h
    cases h1 : sweepOne b ws op with
    | error e =>
      simp only [sweep, h1] at h
      cases h
    | ok p =>
      obtain ⟨ws1, act⟩ := p
      simp only [sweep, h1] at h
      cases h2 : sweep b ws1 rest with
      | error e =>
        simp only [h2] at h
        cases h
      | ok q =>
        obtain ⟨ws3, st3, ex3⟩ := q
        simp only [h2] at h
        have hle := ih h2
        cases act with
        | resolved =>
          obtain ⟨-, h3⟩ := Prod.mk.inj (Except.ok.inj h)
          obtain ⟨h4, -⟩ := Prod.mk.inj h3
          rw [← h4]
          exact Nat.le_succ_of_le hle
        | stalled =>
          obtain ⟨-, h3⟩ := Prod.mk.inj (Except.ok.inj h)
          obtain ⟨h4, -⟩ := Prod.mk.inj h3
          rw [← h4]
          exact Nat.succ_le_succ hle
        | extracted od =>
          obtain ⟨-, h3⟩ := Prod.mk.inj (Except.ok.inj h)
          obtain ⟨h4, -⟩ := Prod.mk.inj h3
          rw [← h4]
          exact Nat.le_succ_of_le hle

theorem sweep_append :
    ∀ (l1 : List (Opcode F)) {l2 : List (Opcode F)} {b : Backend F}
      {ws ws2 : WMap F} {st : List (Opcode F)} {ex : List (OracleData F)},
      sweep b ws (l1 ++ l2) = Except.ok (ws2, st, ex) →
      ∃ ws1 st1 ex1 st2 ex2,
        sweep b ws l1 = Except.ok (ws1, st1, ex1) ∧
        sweep b ws1 l2 = Except.ok (ws2, st2, ex2) ∧
        st = st1 ++ st2 ∧ ex = ex1 ++ ex2 := by
  intro l1
  induction l1 with
  | nil =>
    intro l2 b ws ws2 st ex h
    exact ⟨ws, [], [], st, ex, rfl, h, rfl, rfl⟩
  | cons op rest ih =>
    intro l2 b ws ws2 st ex h
    rw [List.cons_append] at h
    cases h1 : sweepOne b ws op with
    | error e =>
      simp only [sweep, h1] at h
      cases h
    | ok p =>
      obtain ⟨ws1a, act⟩ := p
      simp only [sweep, h1] at h
      cases h2 : sweep b ws1a (rest ++ l2) with
      | error e =>
        simp only [h2] at h
        cases h
      | ok q =>
        obtain ⟨wsR, stR, exR⟩ := q
        simp only [h2] at h
        obtain ⟨wsM, st1, ex1, st2, ex2, hA, hB, hst, hex⟩ := ih h2
        cases act with
        | resolved =>
          obtain ⟨hw, h3⟩ := Prod.mk.inj (Except.ok.inj h)
          obtain ⟨h4, h5⟩ := Prod.mk.inj h3
          refine ⟨wsM, st1, ex1, st2, ex2, ?_, ?_, ?_, ?_⟩
          · simp only [sweep, h1, hA]
          · rw [← hw]
            exact hB
          · rw [← h4, hst]
          · rw [← h5, hex]
        | stalled =>
          obtain ⟨hw, h3⟩ := Prod.mk.inj (Except.ok.inj h)
          obtain ⟨h4, h5⟩ := Prod.mk.inj h3
          refine ⟨wsM, op :: st1, ex1, st2, ex2, ?_, ?_, ?_, ?_⟩
          · simp only [sweep, h1, hA]
          · rw [← hw]
            exact hB
          · rw [← h4, hst, List.cons_append]
          · rw [← h5, hex]
        | extracted od =>
          obtain ⟨hw, h3⟩ := Prod.mk.inj (Except.ok.inj h)
          obtain ⟨h4, h5⟩ := Prod.mk.inj h3
          refine ⟨wsM, st1, od :: ex1, st2, ex2, ?_, ?_, ?_, ?_⟩
          · simp only [sweep, h1, hA]
          · rw [← hw]
            exact hB
          · rw [← h4, hst]
          · rw [← h5, hex, List.cons_append]

theorem sweepOne_oracle_extract {b : Backend F} {ws : WMap F}
    {od : OracleData F} {vals : List F}
    (hov : od.output_values = []) (hin : evalInputs? ws od.inputs = some vals) :
    sweepOne b ws (Opcode.Oracle od) =
      Except.ok (ws, OpcodeAction.extracted { od with input_values := vals }) := by
  simp only [sweepOne, hin, if_pos hov]

theorem sweep_sound :
    ∀ (l : List (Opcode F)) {b : Backend F} {ws ws2 : WMap F}
      {st : List (Opcode F)} {ex : List (OracleData F)},
      sweep b ws l = Except.ok (ws2, st, ex) →
      ∀ e : Expression F, Opcode.Arithmetic e ∈ l →
        Opcode.Arithmetic e ∈ st ∨ evalExpr? ws2 e = some 0 := by
  intro l
  induction l with
  | nil =>
    intro b ws ws2 st ex h e hmem
    cases hmem
  | cons op rest ih =>
    intro b ws ws2 st ex h e hmem
    cases h1 : sweepOne b ws op with
    | error e2 =>
      simp only [sweep, h1] at h
      cases h
    | ok p =>
      obtain ⟨ws1, act⟩ := p
      simp only [sweep, h1] at h
      cases h2 : sweep b ws1 rest with
      | error e2 =>
        simp only [h2] at h
        cases h
      | ok q =>
        obtain ⟨ws3, st3, ex3⟩ := q
        simp only [h2] at h
        rcases List.mem_cons.mp hmem with hop | hrest
        · -- the arithmetic opcode is the head
          rw [← hop] at h1
          have hcases := solveArith_cases (h1 : solveArith ws e = Except.ok (ws1, act))
          rcases hcases with ⟨hact, hev⟩ | ⟨hact, -⟩
          · subst hact
            obtain ⟨hw, h3⟩ := Prod.mk.inj (Except.ok.inj h)
            right
            rw [← hw]
            exact evalExpr?_mono (sweep_extends rest h2) hev
          · subst hact
            obtain ⟨-, h3⟩ := Prod.mk.inj (Except.ok.inj h)
            obtain ⟨h4, -⟩ := Prod.mk.inj h3
            left
            rw [← h4, ← hop]
            exact List.mem_cons_self _ _
        · -- the arithmetic opcode is in the tail
          rcases ih h2 e hrest with hin | hev
          · left
            cases act with
            | resolved =>
              obtain ⟨-, h3⟩ := Prod.mk.inj (Except.ok.inj h)
              obtain ⟨h4, -⟩ := Prod.mk.inj h3
              rw [← h4]
              exact hin
            | stalled =>
              obtain ⟨-, h3⟩ := Prod.mk.inj (Except.ok.inj h)
              obtain ⟨h4, -⟩ := Prod.mk.inj h3
              rw [← h4]
              exact List.mem_cons_of_mem _ hin
            | extracted od =>
              obtain ⟨-, h3⟩ := Prod.mk.inj (Except.ok.inj h)
              obtain ⟨h4, -⟩ := Prod.mk.inj h3
              rw [← h4]
              exact hin
          · right
            cases act with
            | resolved =>
              obtain ⟨hw, -⟩ := Prod.mk.inj (Except.ok.inj h)
              rw [← hw]
              exact hev
            | stalled =>
              obtain ⟨hw, -⟩ := Prod.mk.inj (Except.ok.inj h)
              rw [← hw]
              exact hev
            | extracted od =>
              obtain ⟨hw, -⟩ := Prod.mk.inj (Except.ok.inj h)
              rw [← hw]
              exact hev


/-! ### Loop-level facts -/

theorem solveLoop_fuel :
    ∀ (f1 f2 : Nat) {b : Backend F} {ws : WMap F}
      {reqs : List (OracleData F)} {ops : List (Opcode F)},
      ops.length < f1 → ops.length < f2 →
      solveLoop b f1 ws reqs ops = solveLoop b f2 ws reqs ops := by
  intro f1
  induction f1 with
  | zero =>
    intro f2 b ws reqs ops h1 h2
    exact absurd h1 (Nat.not_lt_zero _)
  | succ n ih =>
    intro f2 b ws reqs ops h1 h2
    cases f2 with
    | zero => exact absurd h2 (Nat.not_lt_zero _)
    | succ m =>
      cases hs : sweep b ws ops with
      | error e => simp only [solveLoop, hs]
      | ok p =>
        obtain ⟨ws2, st, ex⟩ := p
        simp only [solveLoop, hs]
        by_cases hlt : st.length < ops.length
        · rw [if_pos hlt, if_pos hlt]
          exact ih m (by omega) (by omega)
        · rw [if_neg hlt, if_neg hlt]

theorem solveLoop_solved_reqs_nil :
    ∀ (fuel : Nat) {b : Backend F} {ws : WMap F} {reqs : List (OracleData F)}
      {ops : List (Opcode F)} {wsf : WMap F},
      solveLoop b fuel ws reqs ops =
        Except.ok (PartialWitnessGeneratorStatus.Solved, wsf) → reqs = [] := by
  intro fuel
  induction fuel with
  | zero => intro b ws reqs ops wsf h; cases h
  | succ n ih =>
    intro b ws reqs ops wsf h
    cases hs : sweep b ws ops with
    | error e =>
      simp only [solveLoop, hs] at h
      cases h
    | ok p =>
      obtain ⟨ws2, st, ex⟩ := p
      simp only [solveLoop, hs] at h
      by_cases hlt : st.length < ops.length
      · rw [if_pos hlt] at h
        exact (List.append_eq_nil.mp (ih h)).1
      · rw [if_neg hlt] at h
        cases hre : reqs ++ ex with
        | nil => exact (List.append_eq_nil.mp hre).1
        | cons r rs =>
          rw [hre] at h
          obtain ⟨h1, -⟩ := Prod.mk.inj (Except.ok.inj h)
          cases h1

theorem solveLoop_solved_inv {fuel : Nat} {b : Backend F} {ws : WMap F}
    {reqs : List (OracleData F)} {ops : List (Opcode F)} {wsf : WMap F}
    (hf : ops.length < fuel)
    (h : solveLoop b fuel ws reqs ops =
      Except.ok (PartialWitnessGeneratorStatus.Solved, wsf)) :
    ∃ ws2 st, sweep b ws ops = Except.ok (ws2, st, []) ∧ reqs = [] ∧
      st.length ≤ ops.length ∧
      solveLoop b (st.length + 1) ws2 [] st =
        Except.ok (PartialWitnessGeneratorStatus.Solved, wsf) := by
  cases fuel with
  | zero => cases h
  | succ n =>
    cases hs : sweep b ws ops with
    | error e =>
      simp only [solveLoop, hs] at h
      cases h
    | ok p =>
      obtain ⟨ws2, st, ex⟩ := p
      simp only [solveLoop, hs] at h
      by_cases hlt : st.length < ops.length
      · rw [if_pos hlt] at h
        have hnil := solveLoop_solved_reqs_nil n h
        obtain ⟨hr, he⟩ := List.append_eq_nil.mp hnil
        rw [hnil] at h
        refine ⟨ws2, st, by rw [he], hr, Nat.le_of_lt hlt, ?_⟩
        rw [solveLoop_fuel (st.length + 1) n (Nat.lt_succ_self _) (by omega)]
        exact h
      · rw [if_neg hlt] at h
        cases hre : reqs ++ ex with
        | nil =>
          rw [hre] at h
          obtain ⟨hr, he⟩ := List.append_eq_nil.mp hre
          by_cases hemp : st.isEmpty = true
          · rw [if_pos hemp] at h
            obtain ⟨-, hw⟩ := Prod.mk.inj (Except.ok.inj h)
            have hstnil := List.isEmpty_iff.mp hemp
            subst hstnil
            refine ⟨ws2, [], by rw [he], hr, Nat.zero_le _, ?_⟩
            rw [← hw]
            rfl
          · rw [if_neg hemp] at h
            cases h
        | cons r rs =>
          rw [hre] at h
          obtain ⟨h1, -⟩ := Prod.mk.inj (Except.ok.inj h)
          cases h1

theorem solveLoop_reqs_requires :
    ∀ (fuel : Nat) {b : Backend F} {ws : WMap F} {ops : List (Opcode F)}
      {wsf : WMap F} (reqs : List (OracleData F)),
      ops.length < fuel → reqs ≠ [] →
      solveLoop b fuel ws [] ops =
        Except.ok (PartialWitnessGeneratorStatus.Solved, wsf) →
      solveLoop b fuel ws reqs ops =
        Except.ok (PartialWitnessGeneratorStatus.RequiresOracleData reqs [], wsf) := by
  intro fuel
  induction fuel with
  | zero =>
    intro b ws ops wsf reqs hf _ _
    exact absurd hf (Nat.not_lt_zero _)
  | succ n ih =>
    intro b ws ops wsf reqs hf hne h
    cases hs : sweep b ws ops with
    | error e =>
      simp only [solveLoop, hs] at h
      cases h
    | ok p =>
      obtain ⟨ws2, st, ex⟩ := p
      simp only [solveLoop, hs] at h ⊢
      by_cases hlt : st.length < ops.length
      · rw [if_pos hlt] at h ⊢
        have hnil := solveLoop_solved_reqs_nil n h
        have he : ex = [] := (List.append_eq_nil.mp hnil).2
        rw [List.nil_append, he] at h
        rw [he, List.append_nil]
        exact ih reqs (by omega) hne h
      · rw [if_neg hlt] at h ⊢
        cases hre : ex with
        | nil =>
          rw [hre] at h
          rw [List.append_nil] at h ⊢
          by_cases hemp : st.isEmpty = true
          · rw [if_pos hemp] at h
            obtain ⟨-, hw⟩ := Prod.mk.inj (Except.ok.inj h)
            have hstnil := List.isEmpty_iff.mp hemp
            subst hstnil
            cases hreqs : reqs with
            | nil => exact absurd hreqs hne
            | cons r rs =>
              rw [← hw]
          · rw [if_neg hemp] at h
            cases h
        | cons r2 rs2 =>
          rw [hre] at h
          simp only [List.nil_append] at h
          obtain ⟨h1, -⟩ := Prod.mk.inj (Except.ok.inj h)
          cases h1

theorem solveLoop_solved_sound :
    ∀ (fuel : Nat) {b : Backend F} {ws : WMap F} {reqs : List (OracleData F)}
      {ops : List (Opcode F)} {wsf : WMap F},
      solveLoop b fuel ws reqs ops =
        Except.ok (PartialWitnessGeneratorStatus.Solved, wsf) →
      ∀ e : Expression F, Opcode.Arithmetic e ∈ ops → evalExpr? wsf e = some 0 := by
  intro fuel
  induction fuel with
  | zero => intro b ws reqs ops wsf h; cases h
  | succ n ih =>
    intro b ws reqs ops wsf h e hmem
    cases hs : sweep b ws ops with
    | error e2 =>
      simp only [solveLoop, hs] at h
      cases h
    | ok p =>
      obtain ⟨ws2, st, ex⟩ := p
      simp only [solveLoop, hs] at h
      by_cases hlt : st.length < ops.length
      · rw [if_pos hlt] at h
        rcases sweep_sound ops hs e hmem with hin | hev
        · exact ih h e hin
        · have hx : Extends ws2 wsf :=
            solveLoop_extends n h
          exact evalExpr?_mono hx hev
      · rw [if_neg hlt] at h
        cases hre : reqs ++ ex with
        | nil =>
          rw [hre] at h
          by_cases hemp : st.isEmpty = true
          · rw [if_pos hemp] at h
            obtain ⟨-, hw⟩ := Prod.mk.inj (Except.ok.inj h)
            rcases sweep_sound ops hs e hmem with hin | hev
            · rw [List.isEmpty_iff.mp hemp] at hin
              cases hin
            · rw [← hw]
              exact hev
          · rw [if_neg hemp] at h
            cases h
        | cons r rs =>
          rw [hre] at h
          obtain ⟨h1, -⟩ := Prod.mk.inj (Except.ok.inj h)
          cases h1


theorem sweep_append_comp :
    ∀ (l1 : List (Opcode F)) {l2 : List (Opcode F)} {b : Backend F}
      {ws ws1 ws2 : WMap F} {st1 st2 : List (Opcode F)}
      {ex1 ex2 : List (OracleData F)},
      sweep b ws l1 = Except.ok (ws1, st1, ex1) →
      sweep b ws1 l2 = Except.ok (ws2, st2, ex2) →
      sweep b ws (l1 ++ l2) = Except.ok (ws2, st1 ++ st2, ex1 ++ ex2) := by
  intro l1
  induction l1 with
  | nil =>
    intro l2 b ws ws1 ws2 st1 st2 ex1 ex2 h1 h2
    obtain ⟨hw, h3⟩ := Prod.mk.inj (Except.ok.inj h1)
    obtain ⟨h4, h5⟩ := Prod.mk.inj h3
    rw [List.nil_append, ← h4, ← h5, hw]
    simp only [List.nil_append]
    exact h2
  | cons op rest ih =>
    intro l2 b ws ws1 ws2 st1 st2 ex1 ex2 h1 h2
    cases ho : sweepOne b ws op with
    | error e =>
      simp only [sweep, ho] at h1
      cases h1
    | ok p =>
      obtain ⟨wsa, act⟩ := p
      simp only [sweep, ho] at h1
      cases hr : sweep b wsa rest with
      | error e =>
        simp only [hr] at h1
        cases h1
      | ok q =>
        obtain ⟨wsb, stb, exb⟩ := q
        simp only [hr] at h1
        rw [List.cons_append]
        cases act with
        | resolved =>
          obtain ⟨hw, h3⟩ := Prod.mk.inj (Except.ok.inj h1)
          obtain ⟨h4, h5⟩ := Prod.mk.inj h3
          rw [hw] at hr
          simp only [sweep, ho, ih hr h2, ← h4, ← h5]
        | stalled =>
          obtain ⟨hw, h3⟩ := Prod.mk.inj (Except.ok.inj h1)
          obtain ⟨h4, h5⟩ := Prod.mk.inj h3
          rw [hw] at hr
          simp only [sweep, ho, ih hr h2, ← h4, ← h5]
          rw [← List.cons_append]
        | extracted od =>
          obtain ⟨hw, h3⟩ := Prod.mk.inj (Except.ok.inj h1)
          obtain ⟨h4, h5⟩ := Prod.mk.inj h3
          rw [hw] at hr
          simp only [sweep, ho, ih hr h2, ← h4, ← h5]
          rw [← List.cons_append]

/-! ### The oracle round trip -/

theorem oracle_round_trip {b : Backend F} {ws0 ws1 : WMap F}
    {pre post : List (Opcode F)} {od : OracleData F} {vals : List F}
    (hov : od.output_values = [])
    (hin : evalInputs? ws0 od.inputs = some vals)
    (hrest : solve b ws0 (pre ++ post) =
      Except.ok (PartialWitnessGeneratorStatus.Solved, ws1)) :
    solve b ws0 (pre ++ Opcode.Oracle od :: post) =
      Except.ok (PartialWitnessGeneratorStatus.RequiresOracleData
        [{ od with input_values := vals }] [], ws1) := by
  obtain ⟨ws2, st, hsweep, -, hstle, hst⟩ :=
    solveLoop_solved_inv (Nat.lt_succ_self (pre ++ post).length) hrest
  obtain ⟨wsA, stA, exA, stB, exB, hsA, hsB, hstsplit, hexsplit⟩ :=
    sweep_append pre hsweep
  obtain ⟨heA, heB⟩ := List.append_eq_nil.mp hexsplit.symm
  rw [heA] at hsA
  rw [heB] at hsB
  have hxA : Extends ws0 wsA := sweep_extends pre hsA
  have hvalsA : evalInputs? wsA od.inputs = some vals :=
    evalInputs?_mono hxA od.inputs hin
  have horacle := sweepOne_oracle_extract (b := b) hov hvalsA
  have hsweepMid : sweep b wsA (Opcode.Oracle od :: post) =
      Except.ok (ws2, stB, [{ od with input_values := vals }]) := by
    simp only [sweep, horacle, hsB]
  have hsweepOps := sweep_append_comp pre hsA hsweepMid
  have hlenA := sweep_stalled_le pre hsA
  have hlenB := sweep_stalled_le post hsB
  show solveLoop b ((pre ++ Opcode.Oracle od :: post).length + 1) ws0 []
      (pre ++ Opcode.Oracle od :: post) = _
  simp only [solveLoop, hsweepOps]
  have hprog : (stA ++ stB).length < (pre ++ Opcode.Oracle od :: post).length := by
    simp only [List.length_append, List.length_cons]
    omega
  rw [if_pos hprog]
  rw [List.nil_append, ← hstsplit]
  have hlen2 : st.length < (pre ++ Opcode.Oracle od :: post).length := by
    rw [hstsplit]
    simp only [List.length_append, List.length_cons]
    omega
  have hst2 : solveLoop b (pre ++ Opcode.Oracle od :: post).length ws2 [] st =
      Except.ok (PartialWitnessGeneratorStatus.Solved, ws1) := by
    rw [← solveLoop_fuel (st.length + 1) _ (Nat.lt_succ_self _) hlen2]
    exact hst
  exact solveLoop_reqs_requires _ _ hlen2 (by simp) hst2

theorem oracle_resume {b : Backend F} {ws1 ws2 : WMap F}
    {od : OracleData F} {vals vs : List F}
    (hvals1 : evalInputs? ws1 od.inputs = some vals)
    (hvs : vs ≠ [])
    (hins : insert_values ws1 (od.outputs.zip vs) = Except.ok ws2) :
    solve b ws1 [Opcode.Oracle { od with input_values := vals, output_values := vs }] =
      Except.ok (PartialWitnessGeneratorStatus.Solved, ws2) := by
  have hone : sweepOne b ws1
      (Opcode.Oracle { od with input_values := vals, output_values := vs }) =
      Except.ok (ws2, OpcodeAction.resolved) := by
    simp only [sweepOne, hvals1, hins]
    rw [if_neg hvs]
  show solveLoop b 2 ws1 []
      [Opcode.Oracle { od with input_values := vals, output_values := vs }] = _
  simp only [solveLoop, sweep, hone]
  rfl


/-! ### Fatal unsatisfiability -/

theorem solveArith_bad {ws : WMap F} {e : Expression F} {v : F}
    (hev : evalExpr? ws e = some v) (hv : v ≠ 0) :
    solveArith ws e = Except.error OpcodeResolutionError.UnsatisfiedConstrain := by
  have hn := normArith_of_eval hev
  simp only [solveArith, hn]
  rw [if_neg hv]

theorem insert_value_error {w : Witness} {v : F} {ws : WMap F}
    {e2 : OpcodeResolutionError F} (h : insert_value w v ws = Except.error e2) :
    e2 = OpcodeResolutionError.UnsatisfiedConstrain := by
  cases hw : ws w with
  | none =>
    simp only [insert_value, hw] at h
    cases h
  | some old =>
    simp only [insert_value, hw] at h
    by_cases hov : old = v
    · rw [if_pos hov] at h
      cases h
    · rw [if_neg hov] at h
      exact (Except.error.inj h).symm

theorem insert_values_error :
    ∀ (l : List (Witness × F)) {ws : WMap F} {e2 : OpcodeResolutionError F},
      insert_values ws l = Except.error e2 →
      e2 = OpcodeResolutionError.UnsatisfiedConstrain := by
  intro l
  induction l with
  | nil =>
    intro ws e2 h
    cases h
  | cons p rest ih =>
    intro ws e2 h
    obtain ⟨w, v⟩ := p
    cases hins : insert_value w v ws with
    | error e3 =>
      simp only [insert_values, hins] at h
      rw [← Except.error.inj h]
      exact insert_value_error hins
    | ok ws1 =>
      simp only [insert_values, hins] at h
      exact ih h

theorem solveArith_error {ws : WMap F} {e : Expression F}
    {e2 : OpcodeResolutionError F} (h : solveArith ws e = Except.error e2) :
    e2 = OpcodeResolutionError.UnsatisfiedConstrain := by
  cases hn : normArith ws e with
  | none =>
    simp only [solveArith, hn] at h
    cases h
  | some p =>
    obtain ⟨k, rs⟩ := p
    cases rs with
    | nil =>
      simp only [solveArith, hn] at h
      by_cases hk : k = 0
      · rw [if_pos hk] at h
        cases h
      · rw [if_neg hk] at h
        exact (Except.error.inj h).symm
    | cons hd tl =>
      obtain ⟨a, x⟩ := hd
      cases tl with
      | nil =>
        simp only [solveArith, hn] at h
        by_cases ha : a = 0
        · rw [if_pos ha] at h
          cases h
        · rw [if_neg ha] at h
          cases hins : insert_value x (-k / a) ws with
          | error e3 =>
            simp only [hins] at h
            rw [← Except.error.inj h]
            exact insert_value_error hins
          | ok ws1 =>
            simp only [hins] at h
            cases h
      | cons hd2 tl2 =>
        simp only [solveArith, hn] at h
        cases h

theorem sweepOne_error_unsat {b : Backend F} {ws : WMap F} {op : Opcode F}
    {e2 : OpcodeResolutionError F}
    (hop : ∀ fc, op ≠ Opcode.BlackBoxFuncCall fc)
    (h : sweepOne b ws op = Except.error e2) :
    e2 = OpcodeResolutionError.UnsatisfiedConstrain := by
  cases op with
  | Arithmetic e => exact solveArith_error h
  | Directive d =>
    cases d with
    | Invert x result =>
      cases hx : ws x with
      | none =>
        simp only [sweepOne, hx] at h
        cases h
      | some vx =>
        simp only [sweepOne, hx] at h
        cases hins : insert_value result vx⁻¹ ws with
        | error e3 =>
          simp only [hins] at h
          rw [← Except.error.inj h]
          exact insert_value_error hins
        | ok ws1 =>
          simp only [hins] at h
          cases h
  | Oracle od =>
    cases hin : evalInputs? ws od.inputs with
    | none =>
      simp only [sweepOne, hin] at h
      cases h
    | some vals =>
      simp only [sweepOne, hin] at h
      by_cases hov : od.output_values = []
      · rw [if_pos hov] at h
        cases h
      · rw [if_neg hov] at h
        cases hins : insert_values ws (od.outputs.zip od.output_values) with
        | error e3 =>
          simp only [hins] at h
          rw [← Except.error.inj h]
          exact insert_values_error _ hins
        | ok ws1 =>
          simp only [hins] at h
          cases h
  | BlackBoxFuncCall fc => exact absurd rfl (hop fc)
  | Block id => cases h

theorem sweep_bad :
    ∀ (l : List (Opcode F)) {b : Backend F} {ws : WMap F} {e : Expression F}
      {v : F},
      Opcode.Arithmetic e ∈ l → evalExpr? ws e = some v → v ≠ 0 →
      ∃ err, sweep b ws l = Except.error err ∧
        ((∀ op ∈ l, ∀ fc, op ≠ Opcode.BlackBoxFuncCall fc) →
          err = OpcodeResolutionError.UnsatisfiedConstrain) := by
  intro l
  induction l with
  | nil =>
    intro b ws e v hmem _ _
    cases hmem
  | cons op rest ih =>
    intro b ws e v hmem hev hv
    rcases List.mem_cons.mp hmem with hop | hrest
    · refine ⟨OpcodeResolutionError.UnsatisfiedConstrain, ?_, fun _ => rfl⟩
      have hbad : sweepOne b ws op =
          Except.error OpcodeResolutionError.UnsatisfiedConstrain := by
        rw [← hop]
        exact solveArith_bad hev hv
      simp only [sweep, hbad]
    · cases h1 : sweepOne b ws op with
      | error e2 =>
        refine ⟨e2, ?_, ?_⟩
        · simp only [sweep, h1]
        · intro hnb
          exact sweepOne_error_unsat (hnb op (List.mem_cons_self _ _)) h1
      | ok p =>
        obtain ⟨ws1, act⟩ := p
        have hev1 := evalExpr?_mono (sweepOne_extends h1) hev
        obtain ⟨err, hrec, himp⟩ := @ih b ws1 e v hrest hev1 hv
        refine ⟨err, ?_, ?_⟩
        · simp only [sweep, h1, hrec]
        · intro hnb
          exact himp (fun op2 h2 => hnb op2 (List.mem_cons_of_mem _ h2))

theorem solve_bad {b : Backend F} {ws : WMap F} {ops : List (Opcode F)}
    {e : Expression F} {v : F}
    (hmem : Opcode.Arithmetic e ∈ ops) (hev : evalExpr? ws e = some v)
    (hv : v ≠ 0) :
    ∃ err, solve b ws ops = Except.error err ∧
      ((∀ op ∈ ops, ∀ fc, op ≠ Opcode.BlackBoxFuncCall fc) →
        err = OpcodeResolutionError.UnsatisfiedConstrain) := by
  obtain ⟨err, hsw, himp⟩ := @sweep_bad F _ _ ops b ws e v hmem hev hv
  refine ⟨err, ?_, himp⟩
  show solveLoop b (ops.length + 1) ws [] ops = Except.error err
  simp only [solveLoop, hsw]


/-! ## A concrete two-element field with kernel-reducible operations
(`ZMod p` does not serve here: its inverse is defined by well-founded
recursion through `Nat.gcdA` and so never reduces inside the kernel). -/

/-- The field with two elements, carried by `Bool`: addition is `xor`,
multiplication is `and`, negation and inversion are the identity. -/
structure F2 where
  val : Bool
deriving DecidableEq, Fintype

instance : Zero F2 := ⟨⟨false⟩⟩
instance : One F2 := ⟨⟨true⟩⟩
instance : Add F2 := ⟨fun a b => ⟨Bool.xor a.val b.val⟩⟩
instance : Mul F2 := ⟨fun a b => ⟨Bool.and a.val b.val⟩⟩
instance : Neg F2 := ⟨fun a => a⟩
instance : Inv F2 := ⟨fun a => a⟩

instance : Field F2 :=
  Field.ofMinimalAxioms F2
    (by decide) (by decide) (by decide) (by decide) (by decide)
    (by decide) (by decide) (by decide) (by decide) (by decide)

/-! ## Concrete solver instances over `F2` (for witnesses and counterexamples) -/

/-- Projection of an `Except` value onto its error, if any. -/
def errOf {e a : Type} : Except e a → Option e
  | .error err => some err
  | .ok _ => none

/-- A backend that supports no primitive (never invoked in these instances). -/
def exB5 : Backend F2 :=
  fun f _ _ _ => Except.error (OpcodeResolutionError.UnsupportedBlackBoxFunc f)

/-- A diagnostic string for the failing backend. -/
def cReason : String := "invalid signature"

/-- A backend whose every primitive fails with a backend-internal error. -/
def cFailB : Backend F2 :=
  fun f _ _ _ => Except.error (OpcodeResolutionError.BlackBoxFunctionFailed f cReason)

/-- An oracle opcode with a constant input expression and one output. -/
def cOd : OracleData F2 :=
  { name := "invert"
    inputs := [{ mul_terms := [], linear_combinations := [], q_c := 1 }]
    input_values := []
    outputs := [1]
    output_values := [] }

/-- The arithmetic constraint `w1 + 1 = 0`, forcing `w1 = 1` over `F2`. -/
def cArith : Opcode F2 :=
  Opcode.Arithmetic { mul_terms := [], linear_combinations := [(1, 1)], q_c := 1 }

/-- An always-false constraint `1 = 0`. -/
def cBadExpr : Expression F2 :=
  { mul_terms := [], linear_combinations := [], q_c := 1 }

/-- An `AES` black-box call with no inputs and no outputs. -/
def cAes : Opcode F2 :=
  Opcode.BlackBoxFuncCall { name := BlackBoxFunc.AES, inputs := [], outputs := [] }

/-- The empty witness map. -/
def cWs0 : WMap F2 := fun _ => none

/-- The map after the first solving call: `w1 = 1`. -/
def cWs1 : WMap F2 := fun w => if w = 1 then some 1 else none

/-- A partially filled starting map (`w2 = 1`). -/
def c8Ws0 : WMap F2 := fun w => if w = 2 then some 1 else none

/-- `c8Ws0` extended with the solved binding `w1 = 1`. -/
def c8Ws1 : WMap F2 := fun w => if w = 1 then some 1 else c8Ws0 w

/-! ## Claim theorems for the solver -/

/-- C6 (counterexample to the claim as stated): a circuit whose only
unresolved opcode is an oracle with fully known inputs; the first call
returns one oracle request with empty residual, but resubmitting the filled
request can return the fatal unsatisfied-constraint error instead of
`Solved` when the filled output value conflicts with the value the first
call already derived for the output witness (here `0` vs the derived `1`). -/
theorem C6_counterexample :
    solve exB5 cWs0 ([] ++ [cArith]) =
      Except.ok (PartialWitnessGeneratorStatus.Solved, cWs1) ∧
    solve exB5 cWs0 ([] ++ Opcode.Oracle cOd :: [cArith]) =
      Except.ok (PartialWitnessGeneratorStatus.RequiresOracleData
        [{ cOd with input_values := [1] }] [], cWs1) ∧
    errOf (solve exB5 cWs1
        [Opcode.Oracle { cOd with input_values := [1], output_values := [0] }]) =
      some OpcodeResolutionError.UnsatisfiedConstrain :=
  ⟨rfl, rfl, by decide⟩

/-- C6 (amended): for a circuit whose only unresolved opcode is an oracle
with fully known inputs (formally: the list with the oracle removed solves
to `Solved`), the first call returns `RequiresOracleData` with exactly that
one request (inputs evaluated) and an empty residual; resubmitting the
request with its output values filled in — nonempty and consistent with the
already-derived bindings, i.e. with the output assignment succeeding —
returns `Solved`, and every arithmetic opcode of the original list evaluates
to zero under the final map. -/
theorem C6_oracle_round_trip_amended {b : Backend F} {ws0 ws1 : WMap F}
    {pre post : List (Opcode F)} {od : OracleData F} {vals : List F}
    (hov : od.output_values = [])
    (hin : evalInputs? ws0 od.inputs = some vals)
    (hrest : solve b ws0 (pre ++ post) =
      Except.ok (PartialWitnessGeneratorStatus.Solved, ws1)) :
    solve b ws0 (pre ++ Opcode.Oracle od :: post) =
      Except.ok (PartialWitnessGeneratorStatus.RequiresOracleData
        [{ od with input_values := vals }] [], ws1) ∧
    ∀ (vs : List F) (ws2 : WMap F), vs ≠ [] →
      insert_values ws1 (od.outputs.zip vs) = Except.ok ws2 →
      solve b ws1
          [Opcode.Oracle { od with input_values := vals, output_values := vs }] =
        Except.ok (PartialWitnessGeneratorStatus.Solved, ws2) ∧
      ∀ e : Expression F,
        Opcode.Arithmetic e ∈ pre ++ Opcode.Oracle od :: post →
        evalExpr? ws2 e = some 0 := by
  refine ⟨oracle_round_trip hov hin hrest, ?_⟩
  intro vs ws2 hvs hins
  have hx01 : Extends ws0 ws1 := solve_extends hrest
  have hvals1 : evalInputs? ws1 od.inputs = some vals :=
    evalInputs?_mono hx01 od.inputs hin
  refine ⟨oracle_resume hvals1 hvs hins, ?_⟩
  intro e hmem
  have hx12 : Extends ws1 ws2 := insert_values_extends _ hins
  have hmem2 : Opcode.Arithmetic e ∈ pre ++ post := by
    rcases List.mem_append.mp hmem with h2 | h2
    · exact List.mem_append.mpr (Or.inl h2)
    · rcases List.mem_cons.mp h2 with h3 | h3
      · cases h3
      · exact List.mem_append.mpr (Or.inr h3)
  have hsat := solveLoop_solved_sound _ hrest e hmem2
  exact evalExpr?_mono hx12 hsat

theorem C6_witness :
    cOd.output_values = [] ∧
    evalInputs? cWs0 cOd.inputs = some [1] ∧
    solve exB5 cWs0 ([] ++ [cArith]) =
      Except.ok (PartialWitnessGeneratorStatus.Solved, cWs1) ∧
    (solve exB5 cWs0 ([] ++ Opcode.Oracle cOd :: [cArith]) =
      Except.ok (PartialWitnessGeneratorStatus.RequiresOracleData
        [{ cOd with input_values := [1] }] [], cWs1) ∧
    ∀ (vs : List F2) (ws2 : WMap F2), vs ≠ [] →
      insert_values cWs1 (cOd.outputs.zip vs) = Except.ok ws2 →
      solve exB5 cWs1
          [Opcode.Oracle { cOd with input_values := [1], output_values := vs }] =
        Except.ok (PartialWitnessGeneratorStatus.Solved, ws2) ∧
      ∀ e : Expression F2,
        Opcode.Arithmetic e ∈ [] ++ Opcode.Oracle cOd :: [cArith] →
        evalExpr? ws2 e = some 0) :=
  ⟨rfl, rfl, rfl, C6_oracle_round_trip_amended rfl rfl rfl⟩

/-- C7 (counterexample to the claim as stated): a fully assigned circuit with
an always-false arithmetic constraint, preceded by a black-box call whose
backend fails; the solve call aborts with the backend's error, not with
`UnsatisfiedConstrain`. -/
theorem C7_counterexample :
    Opcode.Arithmetic cBadExpr ∈ [cAes, Opcode.Arithmetic cBadExpr] ∧
    evalExpr? cWs0 cBadExpr = some 1 ∧ (1 : F2) ≠ 0 ∧
    errOf (solve cFailB cWs0 [cAes, Opcode.Arithmetic cBadExpr]) =
      some (OpcodeResolutionError.BlackBoxFunctionFailed BlackBoxFunc.AES cReason) ∧
    solve cFailB cWs0 [cAes, Opcode.Arithmetic cBadExpr] ≠
      Except.error OpcodeResolutionError.UnsatisfiedConstrain := by
  refine ⟨by decide, rfl, by decide, by decide, ?_⟩
  intro h
  have h0 : errOf (solve cFailB cWs0 [cAes, Opcode.Arithmetic cBadExpr]) =
      some (OpcodeResolutionError.BlackBoxFunctionFailed BlackBoxFunc.AES cReason) := by
    decide
  rw [h] at h0
  exact absurd h0 (by decide)

/-- C7 (amended): whenever some arithmetic opcode of the list is fully
assigned under the initial map and evaluates to a nonzero field element, the
solve call aborts with a fatal error — it never reports `Solved` or
`RequiresOracleData`; and when the list contains no black-box call (whose
backend may fail first with its own fatal error), the error is exactly
`UnsatisfiedConstrain`. -/
theorem C7_unsatisfied_abort {b : Backend F} {ws : WMap F}
    {ops : List (Opcode F)} {e : Expression F} {v : F}
    (hmem : Opcode.Arithmetic e ∈ ops) (hev : evalExpr? ws e = some v)
    (hv : v ≠ 0) :
    (∃ err, solve b ws ops = Except.error err) ∧
    ((∀ op ∈ ops, ∀ fc, op ≠ Opcode.BlackBoxFuncCall fc) →
      solve b ws ops = Except.error OpcodeResolutionError.UnsatisfiedConstrain) := by
  obtain ⟨err, hs, himp⟩ := solve_bad hmem hev hv
  refine ⟨⟨err, hs⟩, fun hnb => ?_⟩
  rw [hs, himp hnb]

theorem C7_witness :
    Opcode.Arithmetic cBadExpr ∈ [Opcode.Arithmetic cBadExpr] ∧
    evalExpr? cWs0 cBadExpr = some 1 ∧ (1 : F2) ≠ 0 ∧
    ((∃ err, solve exB5 cWs0 [Opcode.Arithmetic cBadExpr] = Except.error err) ∧
    ((∀ op ∈ [Opcode.Arithmetic cBadExpr], ∀ fc,
        op ≠ Opcode.BlackBoxFuncCall fc) →
      solve exB5 cWs0 [Opcode.Arithmetic cBadExpr] =
        Except.error OpcodeResolutionError.UnsatisfiedConstrain)) :=
  ⟨by decide, rfl, by decide,
    @C7_unsatisfied_abort F2 _ _ exB5 cWs0 [Opcode.Arithmetic cBadExpr]
      cBadExpr 1 (by decide) rfl (by decide)⟩

/-- C8: the witness map grows monotonically across a solving call — any
binding present in the initial map is present, with the same value, in the
final map of a successful call (and hence across any sequence of such
calls); no solver step ever overwrites an assigned variable with a different
value (a conflicting assignment is a fatal error instead). -/
theorem C8_monotonic {b : Backend F} {ws : WMap F} {ops : List (Opcode F)}
    {r : PartialWitnessGeneratorStatus F × WMap F} {w : Witness} {v : F}
    (h : solve b ws ops = Except.ok r) (hw : ws w = some v) :
    r.2 w = some v :=
  solve_extends h w v hw

theorem C8_witness :
    solve exB5 c8Ws0 [cArith] =
      Except.ok (PartialWitnessGeneratorStatus.Solved, c8Ws1) ∧
    c8Ws0 2 = some 1 ∧ c8Ws1 2 = some 1 :=
  ⟨rfl, rfl,
    @C8_monotonic F2 _ _ exB5 c8Ws0 [cArith]
      (PartialWitnessGeneratorStatus.Solved, c8Ws1) 2 1 rfl rfl⟩

end Acvm
